import Mathlib

/-!
# Verification of the `ipp-parse` wire-format core

A shallow embedding of `src/ipp-parse/src/attribute.rs` and
`src/ipp-parse/src/parser.rs`: the IPP attribute document model, its
serializer (`IppAttributeList::write`), and the streaming decoder
(`IppParser::parse`).

Byte streams are modelled as `List Nat` (each element a byte value).
Strings on the wire are modelled as their byte sequences (`List Nat`).
The external collaborators that live outside `src/` (the `ipp` tag
enumeration module, the `value` codec and the header codec) are modelled
from the specification, each marked `Modelled from the spec:` in its doc
comment.
-/

namespace IppParse

/-! ## Byte-stream primitives -/

/-- Big-endian 16-bit encoding of a natural number, as the Rust
`write_u16::<BigEndian>` does after the `as u16` truncation. -/
def be16 (n : Nat) : List Nat := [n / 256 % 256, n % 256]

/-- Read one byte from the stream (`read_u8`). -/
def read_u8 : List Nat → Option (Nat × List Nat)
  | [] => none
  | b :: rest => some (b, rest)

/-- Read a big-endian 16-bit integer (`read_u16::<BigEndian>`). -/
def read_u16be : List Nat → Option (Nat × List Nat)
  | b1 :: b2 :: rest => some (b1 * 256 + b2, rest)
  | _ => none

/-- Read exactly `n` raw bytes (`read_string` reads the name bytes). -/
def read_bytes (n : Nat) (l : List Nat) : Option (List Nat × List Nat) :=
  if n ≤ l.length then some (l.take n, l.drop n) else none

theorem read_u16be_some_len {l r : List Nat} {n : Nat}
    (h : read_u16be l = some (n, r)) : r.length + 2 = l.length := by
  match l with
  | [] => simp [read_u16be] at h
  | [b] => simp [read_u16be] at h
  | b1 :: b2 :: rest =>
    simp [read_u16be] at h
    simp [← h.2]

theorem read_bytes_some_len {n : Nat} {l d r : List Nat}
    (h : read_bytes n l = some (d, r)) : r.length ≤ l.length := by
  unfold read_bytes at h
  split at h
  · cases h
    simp
  · cases h

theorem read_u16be_be16 {n : Nat} (r : List Nat) (h : n < 65536) :
    read_u16be (be16 n ++ r) = some (n, r) := by
  have h1 : n / 256 < 256 := by omega
  simp [be16, read_u16be, Nat.mod_eq_of_lt h1]
  omega

theorem read_bytes_exact (l r : List Nat) :
    read_bytes l.length (l ++ r) = some (l, r) := by
  simp [read_bytes, List.take_left, List.drop_left]

/-! ## Delimiter and value tags

Modelled from the spec: the `ipp` module (not under `src/`) enumerates
the group-delimiter tags — `Operation`, `Job`, `Printer` groups plus the
`EndOfAttributes` sentinel — and classifies each tag byte as delimiter
tag, value tag, or invalid; `BeginCollection` and `EndCollection` are
two structural value tags.  Byte values follow the IPP wire protocol the
spec describes (delimiters `0x01`-`0x05`, value tags `0x10`-`0x4a`,
`BegCollection = 0x34`, `EndCollection = 0x37`). -/

/-- Modelled from the spec: the `DelimiterTag` enumeration of the `ipp`
module (not under `src/`). -/
inductive DelimiterTag where
  | OperationAttributes
  | JobAttributes
  | EndOfAttributes
  | PrinterAttributes
  | UnsupportedAttributes
deriving DecidableEq, Repr

/-- Modelled from the spec: the wire byte of each delimiter tag
(`DelimiterTag as u8`). -/
def DelimiterTag.toByte : DelimiterTag → Nat
  | .OperationAttributes => 0x01
  | .JobAttributes => 0x02
  | .EndOfAttributes => 0x03
  | .PrinterAttributes => 0x04
  | .UnsupportedAttributes => 0x05

/-- Modelled from the spec: `DelimiterTag::from_u8`, mapping a delimiter
byte back to the known group, `none` otherwise. -/
def DelimiterTag.from_u8 (b : Nat) : Option DelimiterTag :=
  if b = 0x01 then some .OperationAttributes
  else if b = 0x02 then some .JobAttributes
  else if b = 0x03 then some .EndOfAttributes
  else if b = 0x04 then some .PrinterAttributes
  else if b = 0x05 then some .UnsupportedAttributes
  else none

/-- Modelled from the spec: `is_delimiter_tag` of the `ipp` module —
the delimiter range of tag bytes. -/
def is_delimiter_tag (b : Nat) : Bool := decide (1 ≤ b) && decide (b ≤ 5)

/-- Modelled from the spec: `is_value_tag` of the `ipp` module — the
value-tag range of tag bytes. -/
def is_value_tag (b : Nat) : Bool := decide (0x10 ≤ b) && decide (b ≤ 0x4a)

/-- The `BegCollection` structural value tag byte. -/
def begCollectionByte : Nat := 0x34

/-- The `EndCollection` structural value tag byte. -/
def endCollectionByte : Nat := 0x37

theorem is_delimiter_tag_toByte (d : DelimiterTag) :
    is_delimiter_tag d.toByte = true := by
  cases d <;> decide

theorem from_u8_toByte (d : DelimiterTag) :
    DelimiterTag.from_u8 d.toByte = some d := by
  cases d <;> decide

theorem is_value_tag_not_delimiter {b : Nat} (h : is_value_tag b = true) :
    is_delimiter_tag b = false := by
  simp [is_value_tag] at h
  simp [is_delimiter_tag]
  omega

/-! ## Values

Modelled from the spec: the `value` module (not under `src/`) owns a
tagged union `IppValue` with its own tag byte and binary read/write,
exposed at the interface boundary as `tag_of(value) -> byte`,
`write(value, sink) -> byte_count` and `read(tag, source) -> value`.
On the wire a value is a 2-byte big-endian length followed by the
payload bytes, whose interpretation per scalar kind is owned by the
codec; the model keeps the payload opaque (`Other tag data`).  `ListOf`
and `Collection` are the array and nested-collection variants the
decoder builds (`IppValue::ListOf`, `IppValue::Collection` in
`parser.rs`); their serialization is not part of the codec interface
the spec fixes, and no theorem serializes them. -/
inductive IppValue where
  | Other (tag : Nat) (data : List Nat)
  | ListOf (l : List IppValue)
  | Collection (l : List IppValue)
deriving Repr

/-- Modelled from the spec: `tag_of(value) -> byte` of the value codec.
A collection value carries the `BegCollection` tag; a scalar its own. -/
def IppValue.to_tag : IppValue → Nat
  | .Other t _ => t
  | .ListOf _ => 0
  | .Collection _ => begCollectionByte

/-- Modelled from the spec: the value bytes the codec emits — a 2-byte
big-endian length followed by the payload. -/
def IppValue.write : IppValue → List Nat
  | .Other _ data => be16 data.length ++ data
  | .ListOf _ => []
  | .Collection _ => []

/-- Modelled from the spec: `read(tag, source) -> value` of the value
codec — reads the 2-byte big-endian length and that many payload
bytes. -/
def IppValue.read (tag : Nat) (l : List Nat) : Option (IppValue × List Nat) :=
  match read_u16be l with
  | none => none
  | some (len, r1) =>
    match read_bytes len r1 with
    | none => none
    | some (data, r2) => some (.Other tag data, r2)

theorem IppValue.read_some_len {t : Nat} {l r : List Nat} {v : IppValue}
    (h : IppValue.read t l = some (v, r)) : r.length + 2 ≤ l.length := by
  unfold IppValue.read at h
  match h1 : read_u16be l with
  | none => rw [h1] at h; cases h
  | some (len, r1) =>
    rw [h1] at h
    dsimp only at h
    match h2 : read_bytes len r1 with
    | none => rw [h2] at h; cases h
    | some (data, r2) =>
      rw [h2] at h
      dsimp only at h
      cases h
      have := read_u16be_some_len h1
      have := read_bytes_some_len h2
      omega

theorem IppValue.read_write {t : Nat} (data r : List Nat)
    (h : data.length < 65536) :
    IppValue.read t (be16 data.length ++ (data ++ r)) =
      some (.Other t data, r) := by
  unfold IppValue.read
  rw [read_u16be_be16 _ h]
  dsimp only
  rw [read_bytes_exact]

/-! ## Attributes (`attribute.rs`) -/

/-- `IppAttribute` of `attribute.rs`: one name/value pair.  The name is
modelled as its wire bytes. -/
structure IppAttribute where
  name : List Nat
  value : IppValue
deriving Repr

/-- `IppAttribute::write`: 1-byte value tag, 2-byte big-endian name
length, name bytes, then the value's own encoding. -/
def IppAttribute.write (a : IppAttribute) : List Nat :=
  a.value.to_tag :: (be16 a.name.length ++ a.name ++ a.value.write)

/-- Byte sequence of the header-attribute names of `attribute.rs`,
`"attributes-charset"` (ASCII). -/
def ATTRIBUTES_CHARSET : List Nat := [97, 116, 116, 114, 105, 98, 117, 116,
  101, 115, 45, 99, 104, 97, 114, 115, 101, 116]

/-- `"attributes-natural-language"` (ASCII bytes). -/
def ATTRIBUTES_NATURAL_LANGUAGE : List Nat := [97, 116, 116, 114, 105, 98,
  117, 116, 101, 115, 45, 110, 97, 116, 117, 114, 97, 108, 45, 108, 97, 110,
  103, 117, 97, 103, 101]

/-- `"printer-uri"` (ASCII bytes). -/
def PRINTER_URI : List Nat := [112, 114, 105, 110, 116, 101, 114, 45, 117,
  114, 105]

/-- `HEADER_ATTRS` of `attribute.rs`: the three distinguished header
attribute names, in their fixed serialization order. -/
def HEADER_ATTRS : List (List Nat) :=
  [ATTRIBUTES_CHARSET, ATTRIBUTES_NATURAL_LANGUAGE, PRINTER_URI]

/-- `is_header_attr` of `attribute.rs`. -/
def is_header_attr (n : List Nat) : Bool :=
  HEADER_ATTRS.any (fun x => decide (x = n))

/-- Insert an attribute into a group's name-keyed map, modelled as an
association list: an existing binding of the same name is replaced in
place, otherwise the attribute is appended (`HashMap::insert`). -/
def insertAttr : List IppAttribute → IppAttribute → List IppAttribute
  | [], a => [a]
  | b :: rest, a =>
    if b.name = a.name then a :: rest else b :: insertAttr rest a

/-- Look an attribute up by name in a group's map (`HashMap::get`). -/
def lookupAttr : List IppAttribute → List Nat → Option IppAttribute
  | [], _ => none
  | b :: rest, n => if b.name = n then some b else lookupAttr rest n

/-- `IppAttributeList` of `attribute.rs`: attributes indexed by group
and name.  Both `HashMap` levels are modelled as association lists. -/
structure IppAttributeList where
  attributes : List (DelimiterTag × List IppAttribute)
deriving Repr

/-- `IppAttributeList::new`. -/
def IppAttributeList.new : IppAttributeList := ⟨[]⟩

/-- Insert into the group-keyed outer map, creating the group's inner
map on first use (`entry(group).or_insert_with` followed by
`insert`). -/
def insertGroup (m : List (DelimiterTag × List IppAttribute))
    (g : DelimiterTag) (a : IppAttribute) :
    List (DelimiterTag × List IppAttribute) :=
  match m with
  | [] => [(g, [a])]
  | (g', attrs) :: rest =>
    if g' = g then (g', insertAttr attrs a) :: rest
    else (g', attrs) :: insertGroup rest g a

/-- `IppAttributeList::add`. -/
def IppAttributeList.add (l : IppAttributeList) (g : DelimiterTag)
    (a : IppAttribute) : IppAttributeList :=
  ⟨insertGroup l.attributes g a⟩

/-- `IppAttributeList::get_group`. -/
def IppAttributeList.get_group (l : IppAttributeList) (g : DelimiterTag) :
    Option (List IppAttribute) :=
  l.attributes.lookup g

/-- `IppAttributeList::get`. -/
def IppAttributeList.get (l : IppAttributeList) (g : DelimiterTag)
    (n : List Nat) : Option IppAttribute :=
  match l.get_group g with
  | none => none
  | some attrs => lookupAttr attrs n

/-- Concatenated serialization of a list of attributes (one loop body of
`IppAttributeList::write`). -/
def writeAttrs : List IppAttribute → List Nat
  | [] => []
  | a :: rest => a.write ++ writeAttrs rest

/-- The bytes the header loop of `IppAttributeList::write` emits for one
header name: the attribute's serialization when present in the
Operation group, nothing otherwise. -/
def headerBytes (l : IppAttributeList) (h : List Nat) : List Nat :=
  match l.get .OperationAttributes h with
  | some a => a.write
  | none => []

/-- The bytes the group loop of `IppAttributeList::write` emits for one
group: nothing when the group is absent; otherwise the group's
delimiter byte (skipped for the Operation group, whose tag was already
sent) followed by every attribute of the group except, for the
Operation group, the three header attributes. -/
def groupBytes (l : IppAttributeList) (g : DelimiterTag) : List Nat :=
  match l.get_group g with
  | none => []
  | some attrs =>
    (if g ≠ DelimiterTag.OperationAttributes then [g.toByte] else [])
      ++ writeAttrs (attrs.filter (fun a =>
          decide (g ≠ DelimiterTag.OperationAttributes)
            || !is_header_attr a.name))

/-- `IppAttributeList::write`: the Operation delimiter byte,
unconditionally; the header attributes in fixed order; each group in the
fixed order Operation, Job, Printer; the end-of-attributes sentinel. -/
def IppAttributeList.write (l : IppAttributeList) : List Nat :=
  DelimiterTag.OperationAttributes.toByte
    :: (HEADER_ATTRS.foldl (fun acc h => acc ++ headerBytes l h) []
        ++ [DelimiterTag.OperationAttributes, DelimiterTag.JobAttributes,
            DelimiterTag.PrinterAttributes].foldl
            (fun acc g => acc ++ groupBytes l g) []
        ++ [DelimiterTag.EndOfAttributes.toByte])

/-! ## Parser (`parser.rs`) -/

/-- The two error classes of `parse` (§7 of the spec): an I/O failure
on the underlying stream (here: running out of bytes), and the generic
tag error carrying the offending byte value
(`io::Error::new(Other, format!("Tag error: {}", tag))`). -/
inductive ParseError where
  | eof
  | tagError (b : Nat)
deriving DecidableEq, Repr

/-- `list_to_value` of `parser.rs`: a one-element list collapses to its
single element, any other list becomes `IppValue::ListOf`. -/
def list_to_value (l : List IppValue) : IppValue :=
  match l with
  | [v] => v
  | _ => .ListOf l

/-- `IppHeader` of the crate root (not under `src/`). -/
structure IppHeader where
  version : Nat
  operation_status : Nat
  request_id : Nat
deriving Repr

/-- Modelled from the spec: the header codec (`IppHeader::from_reader`,
not under `src/`) reads the leading protocol header — a 2-byte version,
a 2-byte operation/status code and a 4-byte request id, big-endian —
once before the attribute loop begins. -/
def IppHeader.from_reader : List Nat → Option (IppHeader × List Nat)
  | v1 :: v2 :: o1 :: o2 :: r1 :: r2 :: r3 :: r4 :: rest =>
    some (⟨v1 * 256 + v2, o1 * 256 + o2,
           ((r1 * 256 + r2) * 256 + r3) * 256 + r4⟩, rest)
  | _ => none

/-- The mutable locals of `IppParser::parse`: the last delimiter tag
seen, the stack of value lists (innermost level first), the result
list accumulated so far, and the name of the previous attribute. -/
structure ParserState where
  delimiter : DelimiterTag
  stack : List (List IppValue)
  retval : IppAttributeList
  last_name : Option (List Nat)

/-- The initial parser state: `delimiter` starts at the end sentinel,
the stack holds one empty level, nothing is pending. -/
def initState : ParserState :=
  ⟨.EndOfAttributes, [[]], .new, none⟩

/-- The end-of-attributes flush of `parse` (lines 68-78): if an
attribute is pending and the stack is non-empty, pop the innermost
level, collapse it and record it under the current delimiter. -/
def endFlush (st : ParserState) : IppAttributeList :=
  match st.last_name with
  | some ln =>
    match st.stack with
    | [] => st.retval
    | vals :: _ => st.retval.add st.delimiter ⟨ln, list_to_value vals⟩
  | none => st.retval

/-- The value-tag body of `parse` (lines 86-124): flush the pending
attribute when a nonzero-length name starts a new one, then dispatch on
the structural tags. -/
def stepValue (tag namelen : Nat) (name : List Nat) (value : IppValue)
    (st : ParserState) : ParserState :=
  let st1 :=
    if namelen > 0 then
      match st.last_name with
      | some ln =>
        match st.stack with
        | [] =>
          { st with stack := [[]], last_name := some name }
        | vals :: rest =>
          { st with
            stack := [] :: rest,
            retval := st.retval.add st.delimiter ⟨ln, list_to_value vals⟩,
            last_name := some name }
      | none => { st with last_name := some name }
    else st
  if tag = begCollectionByte then
    { st1 with stack := [] :: st1.stack }
  else if tag = endCollectionByte then
    match st1.stack with
    | [] => st1
    | arr :: rest =>
      match rest with
      | [] => { st1 with stack := [] }
      | vals :: rest2 =>
        { st1 with stack := (vals ++ [IppValue.Collection arr]) :: rest2 }
  else
    match st1.stack with
    | [] => st1
    | vals :: rest => { st1 with stack := (vals ++ [value]) :: rest }

/-- The reads a value tag triggers (lines 88-90): the 2-byte big-endian
name length, the name bytes, then the value of the kind the tag
indicates. -/
def readValRecord (tag : Nat) (l : List Nat) :
    Option (Nat × List Nat × IppValue × List Nat) :=
  match read_u16be l with
  | none => none
  | some (namelen, r1) =>
    match read_bytes namelen r1 with
    | none => none
    | some (name, r2) =>
      match IppValue.read tag r2 with
      | none => none
      | some (value, r3) => some (namelen, name, value, r3)

theorem readValRecord_some_len {t : Nat} {l r3 : List Nat} {nl : Nat}
    {nm : List Nat} {v : IppValue}
    (h : readValRecord t l = some (nl, nm, v, r3)) :
    r3.length + 2 ≤ l.length := by
  unfold readValRecord at h
  match h1 : read_u16be l with
  | none => rw [h1] at h; cases h
  | some (namelen, r1) =>
    rw [h1] at h
    dsimp only at h
    match h2 : read_bytes namelen r1 with
    | none => rw [h2] at h; cases h
    | some (name, r2) =>
      rw [h2] at h
      dsimp only at h
      match h3 : IppValue.read t r2 with
      | none => rw [h3] at h; cases h
      | some (value, r3') =>
        rw [h3] at h
        dsimp only at h
        cases h
        have := read_u16be_some_len h1
        have := read_bytes_some_len h2
        have := IppValue.read_some_len h3
        omega

/-- The tag loop of `IppParser::parse` (lines 64-131), one tag at a
time: an end sentinel flushes and stops; another delimiter tag becomes
the current group; a value tag reads its record and updates the state;
any other byte is a tag error.  Returns the result list together with
the unconsumed rest of the stream. -/
def parseLoop (input : List Nat) (st : ParserState) :
    Except ParseError (IppAttributeList × List Nat) :=
  match input with
  | [] => .error .eof
  | t :: rest =>
    if is_delimiter_tag t then
      if t = DelimiterTag.EndOfAttributes.toByte then
        .ok (endFlush st, rest)
      else
        match DelimiterTag.from_u8 t with
        | some d => parseLoop rest { st with delimiter := d }
        | none => .error (.tagError t)
    else if is_value_tag t then
      match h : readValRecord t rest with
      | none => .error .eof
      | some (namelen, name, value, r3) =>
        parseLoop r3 (stepValue t namelen name value st)
    else .error (.tagError t)
termination_by input.length
decreasing_by
  · simp
  · have := readValRecord_some_len h
    simp
    omega

/-- `IppParseResult` of `parser.rs`. -/
structure IppParseResult where
  header : IppHeader
  attributes : IppAttributeList
deriving Repr

/-- `IppParser::parse`: read the protocol header, then run the tag
loop from the initial state.  Returns the result together with the
unconsumed rest of the stream. -/
def IppParser.parse (input : List Nat) :
    Except ParseError (IppParseResult × List Nat) :=
  match IppHeader.from_reader input with
  | none => .error .eof
  | some (header, rest) =>
    match parseLoop rest initState with
    | .error e => .error e
    | .ok (attrs, rest2) => .ok (⟨header, attrs⟩, rest2)

/-! ## Single-step behavior of the tag loop -/

theorem parseLoop_delim (d : DelimiterTag) (hd : d ≠ .EndOfAttributes)
    (rest : List Nat) (st : ParserState) :
    parseLoop (d.toByte :: rest) st =
      parseLoop rest { st with delimiter := d } := by
  have hne : d.toByte ≠ DelimiterTag.EndOfAttributes.toByte := by
    cases d <;> simp_all [DelimiterTag.toByte]
  rw [parseLoop]
  simp only [is_delimiter_tag_toByte, eq_self_iff_true, if_true, hne,
    if_false, from_u8_toByte]

theorem parseLoop_end (rest : List Nat) (st : ParserState) :
    parseLoop (DelimiterTag.EndOfAttributes.toByte :: rest) st =
      .ok (endFlush st, rest) := by
  rw [parseLoop]
  simp [is_delimiter_tag_toByte]

theorem parseLoop_value {t : Nat} (hv : is_value_tag t = true)
    {rest r3 : List Nat} {namelen : Nat} {name : List Nat} {value : IppValue}
    (hr : readValRecord t rest = some (namelen, name, value, r3))
    (st : ParserState) :
    parseLoop (t :: rest) st =
      parseLoop r3 (stepValue t namelen name value st) := by
  rw [parseLoop]
  simp only [is_value_tag_not_delimiter hv, hv, Bool.false_eq_true,
    if_false, eq_self_iff_true, if_true]
  split
  · rename_i heq
    rw [hr] at heq
    cases heq
  · rename_i nl nm v r heq
    rw [hr] at heq
    cases heq
    rfl

theorem parseLoop_tagError {b : Nat} (hd : is_delimiter_tag b = false)
    (hv : is_value_tag b = false) (rest : List Nat) (st : ParserState) :
    parseLoop (b :: rest) st = .error (.tagError b) := by
  rw [parseLoop]
  simp [hd, hv]

/-! ## Wire records -/

/-- The byte layout of one attribute record on the wire: value tag,
2-byte big-endian name length, name bytes, 2-byte big-endian value
length, value payload. -/
def recBytes (t : Nat) (name data : List Nat) : List Nat :=
  t :: (be16 name.length ++ name ++ (be16 data.length ++ data))

theorem IppAttribute.write_scalar (n : List Nat) (t : Nat) (d : List Nat) :
    IppAttribute.write ⟨n, .Other t d⟩ = recBytes t n d := by
  simp [IppAttribute.write, recBytes, IppValue.to_tag, IppValue.write]

theorem readValRecord_encode (t : Nat) (name data rest : List Nat)
    (hn : name.length < 65536) (hd : data.length < 65536) :
    readValRecord t
        (be16 name.length ++ (name ++ (be16 data.length ++ (data ++ rest)))) =
      some (name.length, name, .Other t data, rest) := by
  unfold readValRecord
  rw [read_u16be_be16 _ hn]
  dsimp only
  rw [read_bytes_exact]
  dsimp only
  rw [IppValue.read_write _ _ hd]

/-- One record step of the loop: reading one well-formed attribute
record advances the state by `stepValue` and continues on the rest. -/
theorem parseLoop_record {t : Nat} (hv : is_value_tag t = true)
    (name data : List Nat) (hn : name.length < 65536)
    (hd : data.length < 65536) (rest : List Nat) (st : ParserState) :
    parseLoop (recBytes t name data ++ rest) st =
      parseLoop rest
        (stepValue t name.length name (.Other t data) st) := by
  have heq : recBytes t name data ++ rest =
      t :: (be16 name.length
        ++ (name ++ (be16 data.length ++ (data ++ rest)))) := by
    simp [recBytes, List.append_assoc]
  rw [heq, parseLoop_value hv (readValRecord_encode t name data rest hn hd)]

/-! ## Token-level view of attribute byte streams

A stream between the header and the end sentinel is a sequence of
group-delimiter tags and attribute records; the refinement lemma
`parseLoop_toks` replays the byte-level loop token by token. -/

/-- One token of the attribute section: a group-delimiter tag or an
attribute record. -/
inductive Tok where
  | grp (d : DelimiterTag)
  | att (a : IppAttribute)

/-- The bytes of one token. -/
def encodeTok : Tok → List Nat
  | .grp d => [d.toByte]
  | .att a => a.write

/-- The bytes of a token sequence. -/
def encodeToks : List Tok → List Nat
  | [] => []
  | tk :: ts => encodeTok tk ++ encodeToks ts

/-- The state transition one token causes in the tag loop. -/
def tokStep (st : ParserState) : Tok → ParserState
  | .grp d => { st with delimiter := d }
  | .att a => stepValue a.value.to_tag a.name.length a.name a.value st

/-- A well-formed scalar attribute: non-empty name of wire-encodable
length, and a scalar value with an ordinary (non-structural) value tag
and an encodable payload. -/
def IppAttribute.wfScalar (a : IppAttribute) : Bool :=
  !decide (a.name = []) && decide (a.name.length < 65536) &&
    (match a.value with
     | .Other t d =>
       is_value_tag t && !decide (t = begCollectionByte)
         && !decide (t = endCollectionByte) && decide (d.length < 65536)
     | _ => false)

/-- A well-formed token: a non-sentinel delimiter or a well-formed
scalar record. -/
def Tok.wf : Tok → Bool
  | .grp d => !decide (d = DelimiterTag.EndOfAttributes)
  | .att a => a.wfScalar

theorem encodeToks_append (ts1 ts2 : List Tok) :
    encodeToks (ts1 ++ ts2) = encodeToks ts1 ++ encodeToks ts2 := by
  induction ts1 with
  | nil => simp [encodeToks]
  | cons tk ts ih => simp [encodeToks, ih]

/-- Replaying a sequence of well-formed tokens: the byte-level loop
consumes their encoding and folds `tokStep` over the state. -/
theorem parseLoop_toks (ts : List Tok) (hwf : ∀ tk ∈ ts, tk.wf = true)
    (rest : List Nat) (st : ParserState) :
    parseLoop (encodeToks ts ++ rest) st =
      parseLoop rest (ts.foldl tokStep st) := by
  induction ts generalizing st with
  | nil => simp [encodeToks]
  | cons tk ts ih =>
    have htk : tk.wf = true := hwf tk (List.mem_cons_self tk ts)
    have hts : ∀ x ∈ ts, Tok.wf x = true := fun x hx =>
      hwf x (List.mem_cons_of_mem tk hx)
    cases tk with
    | grp d =>
      have hd : d ≠ DelimiterTag.EndOfAttributes := by
        simpa [Tok.wf] using htk
      have hsplit : encodeToks (Tok.grp d :: ts) ++ rest =
          d.toByte :: (encodeToks ts ++ rest) := by
        simp [encodeToks, encodeTok]
      rw [hsplit, parseLoop_delim d hd, ih hts]
      rfl
    | att a =>
      match hval : a.value with
      | .ListOf _ => simp [Tok.wf, IppAttribute.wfScalar, hval] at htk
      | .Collection _ => simp [Tok.wf, IppAttribute.wfScalar, hval] at htk
      | .Other t d =>
        simp only [Tok.wf, IppAttribute.wfScalar, hval, Bool.and_eq_true,
          Bool.not_eq_true', decide_eq_true_eq,
          decide_eq_false_iff_not] at htk
        obtain ⟨⟨hne, hn⟩, ⟨⟨hv, hbeg⟩, hend⟩, hd⟩ := htk
        have hwr : a.write = recBytes t a.name d := by
          simp [IppAttribute.write, hval, IppValue.to_tag, IppValue.write,
            recBytes]
        have hsplit : encodeToks (Tok.att a :: ts) ++ rest =
            recBytes t a.name d ++ (encodeToks ts ++ rest) := by
          simp [encodeToks, encodeTok, hwr]
        rw [hsplit, parseLoop_record hv a.name d hn hd, ih hts]
        have : stepValue t a.name.length a.name (IppValue.Other t d) st =
            tokStep st (Tok.att a) := by
          simp [tokStep, hval, IppValue.to_tag]
        rw [this]
        rfl

/-! ## The emission machine

`emsOf` pairs each record of a token sequence with the group that is
current when the record is read; `finalDelim` is the group current at
the end; `addShiftF` replays the flushes of the tag loop: each record's
attribute is recorded under the group current when the *next* record
arrives, and the final one under the group current at the end
sentinel. -/

/-- Each record paired with the delimiter current when it is read. -/
def emsOf : List Tok → DelimiterTag → List (DelimiterTag × IppAttribute)
  | [], _ => []
  | .grp g :: ts, _ => emsOf ts g
  | .att a :: ts, d => (d, a) :: emsOf ts d

/-- The delimiter current after the whole token sequence. -/
def finalDelim : List Tok → DelimiterTag → DelimiterTag
  | [], d => d
  | .grp g :: ts, _ => finalDelim ts g
  | .att _ :: ts, d => finalDelim ts d

/-- Replay of the flushes: every attribute is added under the group of
the *next* emission, and the last one under the final delimiter
`fd`. -/
def addShiftF (rv : IppAttributeList) (fd : DelimiterTag) :
    List (DelimiterTag × IppAttribute) → IppAttributeList
  | [] => rv
  | [(_, a)] => rv.add fd a
  | (_, a) :: (d', b) :: es => addShiftF (rv.add d' a) fd ((d', b) :: es)

theorem addShiftF_headGroup (rv : IppAttributeList) (fd d1 d2 : DelimiterTag)
    (a : IppAttribute) (es : List (DelimiterTag × IppAttribute)) :
    addShiftF rv fd ((d1, a) :: es) = addShiftF rv fd ((d2, a) :: es) := by
  cases es with
  | nil => rfl
  | cons p es => rfl

theorem emsOf_append (ts1 ts2 : List Tok) (d : DelimiterTag) :
    emsOf (ts1 ++ ts2) d = emsOf ts1 d ++ emsOf ts2 (finalDelim ts1 d) := by
  induction ts1 generalizing d with
  | nil => simp [emsOf, finalDelim]
  | cons tk ts ih =>
    cases tk with
    | grp g => simp [emsOf, finalDelim, ih]
    | att a => simp [emsOf, finalDelim, ih]

theorem finalDelim_append (ts1 ts2 : List Tok) (d : DelimiterTag) :
    finalDelim (ts1 ++ ts2) d = finalDelim ts2 (finalDelim ts1 d) := by
  induction ts1 generalizing d with
  | nil => simp [finalDelim]
  | cons tk ts ih =>
    cases tk with
    | grp g => simp [finalDelim, ih]
    | att a => simp [finalDelim, ih]

theorem emsOf_attList (as : List IppAttribute) (d : DelimiterTag) :
    emsOf (as.map Tok.att) d = as.map (fun a => (d, a)) := by
  induction as with
  | nil => rfl
  | cons a as ih => simp [emsOf, ih]

theorem finalDelim_attList (as : List IppAttribute) (d : DelimiterTag) :
    finalDelim (as.map Tok.att) d = d := by
  induction as with
  | nil => rfl
  | cons a as ih => simp [finalDelim, ih]

theorem list_to_value_single (v : IppValue) : list_to_value [v] = v := rfl

/-- The state transition of one well-formed scalar record in a state
with a pending attribute and a single-level stack. -/
theorem tokStep_att_pending (a : IppAttribute) (hwf : a.wfScalar = true)
    (d : DelimiterTag) (vals : List IppValue) (rv : IppAttributeList)
    (ln : List Nat) :
    tokStep ⟨d, [vals], rv, some ln⟩ (Tok.att a) =
      ⟨d, [[a.value]], rv.add d ⟨ln, list_to_value vals⟩, some a.name⟩ := by
  match hval : a.value with
  | .ListOf _ => simp [IppAttribute.wfScalar, hval] at hwf
  | .Collection _ => simp [IppAttribute.wfScalar, hval] at hwf
  | .Other t dt =>
    simp only [IppAttribute.wfScalar, hval, Bool.and_eq_true,
      Bool.not_eq_true', decide_eq_true_eq, decide_eq_false_iff_not] at hwf
    obtain ⟨⟨hne, hn⟩, ⟨⟨hv, hbeg⟩, hend⟩, hd⟩ := hwf
    have hpos : a.name.length > 0 := List.length_pos.mpr hne
    simp [tokStep, stepValue, hval, IppValue.to_tag, hpos, hbeg, hend]

/-- The state transition of one well-formed scalar record in a state
with no pending attribute and a single-level stack. -/
theorem tokStep_att_none (a : IppAttribute) (hwf : a.wfScalar = true)
    (d : DelimiterTag) (vals : List IppValue) (rv : IppAttributeList) :
    tokStep ⟨d, [vals], rv, none⟩ (Tok.att a) =
      ⟨d, [vals ++ [a.value]], rv, some a.name⟩ := by
  match hval : a.value with
  | .ListOf _ => simp [IppAttribute.wfScalar, hval] at hwf
  | .Collection _ => simp [IppAttribute.wfScalar, hval] at hwf
  | .Other t dt =>
    simp only [IppAttribute.wfScalar, hval, Bool.and_eq_true,
      Bool.not_eq_true', decide_eq_true_eq, decide_eq_false_iff_not] at hwf
    obtain ⟨⟨hne, hn⟩, ⟨⟨hv, hbeg⟩, hend⟩, hd⟩ := hwf
    have hpos : a.name.length > 0 := List.length_pos.mpr hne
    simp [tokStep, stepValue, hval, IppValue.to_tag, hpos, hbeg, hend]

/-- Running the token machine from a state with a pending attribute:
the pending attribute and every later one land where the *next* record
finds the delimiter, the last one where the end flush finds it. -/
theorem foldl_tokStep_pending (ts : List Tok)
    (hwf : ∀ tk ∈ ts, tk.wf = true) (d : DelimiterTag)
    (vals : List IppValue) (rv : IppAttributeList) (ln : List Nat) :
    endFlush (ts.foldl tokStep ⟨d, [vals], rv, some ln⟩) =
      addShiftF rv (finalDelim ts d)
        ((d, ⟨ln, list_to_value vals⟩) :: emsOf ts d) := by
  induction ts generalizing d vals rv ln with
  | nil =>
    simp [endFlush, finalDelim, emsOf, addShiftF]
  | cons tk ts ih =>
    have htk : tk.wf = true := hwf tk (List.mem_cons_self tk ts)
    have hts : ∀ x ∈ ts, Tok.wf x = true := fun x hx =>
      hwf x (List.mem_cons_of_mem tk hx)
    cases tk with
    | grp g =>
      have hstep : tokStep ⟨d, [vals], rv, some ln⟩ (Tok.grp g) =
          ⟨g, [vals], rv, some ln⟩ := rfl
      calc endFlush ((Tok.grp g :: ts).foldl tokStep ⟨d, [vals], rv, some ln⟩)
          = endFlush (ts.foldl tokStep ⟨g, [vals], rv, some ln⟩) := by
            rw [List.foldl_cons, hstep]
        _ = addShiftF rv (finalDelim ts g)
              ((g, ⟨ln, list_to_value vals⟩) :: emsOf ts g) := ih hts g vals rv ln
        _ = addShiftF rv (finalDelim (Tok.grp g :: ts) d)
              ((d, ⟨ln, list_to_value vals⟩) :: emsOf (Tok.grp g :: ts) d) := by
            rw [addShiftF_headGroup rv _ g d]
            rfl
    | att a =>
      have hstep := tokStep_att_pending a htk d vals rv ln
      calc endFlush ((Tok.att a :: ts).foldl tokStep ⟨d, [vals], rv, some ln⟩)
          = endFlush (ts.foldl tokStep
              ⟨d, [[a.value]], rv.add d ⟨ln, list_to_value vals⟩,
                some a.name⟩) := by
            rw [List.foldl_cons, hstep]
        _ = addShiftF (rv.add d ⟨ln, list_to_value vals⟩) (finalDelim ts d)
              ((d, ⟨a.name, list_to_value [a.value]⟩) :: emsOf ts d) :=
            ih hts d [a.value] _ a.name
        _ = addShiftF rv (finalDelim (Tok.att a :: ts) d)
              ((d, ⟨ln, list_to_value vals⟩)
                :: emsOf (Tok.att a :: ts) d) := by
            simp only [list_to_value_single, finalDelim, emsOf]
            rfl

/-- Running the token machine from the no-pending single-level state:
the result of the parse is the shifted replay of the emissions. -/
theorem foldl_tokStep_none (ts : List Tok)
    (hwf : ∀ tk ∈ ts, tk.wf = true) (d : DelimiterTag)
    (rv : IppAttributeList) :
    endFlush (ts.foldl tokStep ⟨d, [[]], rv, none⟩) =
      addShiftF rv (finalDelim ts d) (emsOf ts d) := by
  induction ts generalizing d with
  | nil => simp [endFlush, finalDelim, emsOf, addShiftF]
  | cons tk ts ih =>
    have htk : tk.wf = true := hwf tk (List.mem_cons_self tk ts)
    have hts : ∀ x ∈ ts, Tok.wf x = true := fun x hx =>
      hwf x (List.mem_cons_of_mem tk hx)
    cases tk with
    | grp g =>
      have hstep : tokStep ⟨d, [[]], rv, none⟩ (Tok.grp g) =
          ⟨g, [[]], rv, none⟩ := rfl
      rw [List.foldl_cons, hstep, ih hts g]
      rfl
    | att a =>
      have hstep := tokStep_att_none a htk d [] rv
      rw [List.foldl_cons, hstep]
      simp only [List.nil_append]
      rw [foldl_tokStep_pending ts hts d [a.value] rv a.name]
      simp only [list_to_value_single, emsOf, finalDelim]

/-! ## The token decomposition of `IppAttributeList::write` -/

/-- An optional attribute as a (zero- or one-element) list. -/
def optAttr : Option IppAttribute → List IppAttribute
  | some a => [a]
  | none => []

/-- The attributes the header loop of `write` emits, in its fixed
order: whichever of `attributes-charset`, `attributes-natural-language`
and `printer-uri` are present in the Operation group. -/
def headerEmission (l : IppAttributeList) : List IppAttribute :=
  optAttr (l.get .OperationAttributes ATTRIBUTES_CHARSET)
    ++ optAttr (l.get .OperationAttributes ATTRIBUTES_NATURAL_LANGUAGE)
    ++ optAttr (l.get .OperationAttributes PRINTER_URI)

/-- The attributes the group loop of `write` emits for one group: all
of the group's attributes except, for the Operation group, the three
header attributes. -/
def secAttrs (l : IppAttributeList) (g : DelimiterTag) : List IppAttribute :=
  match l.get_group g with
  | none => []
  | some attrs =>
    attrs.filter (fun a =>
      decide (g ≠ DelimiterTag.OperationAttributes) || !is_header_attr a.name)

/-- The tokens the group loop of `write` emits for one group. -/
def secToks (l : IppAttributeList) (g : DelimiterTag) : List Tok :=
  match l.get_group g with
  | none => []
  | some _ =>
    (if g = DelimiterTag.OperationAttributes then [] else [.grp g])
      ++ (secAttrs l g).map Tok.att

/-- The token sequence of the whole serialized document (without the
final end sentinel). -/
def toksOf (l : IppAttributeList) : List Tok :=
  .grp .OperationAttributes
    :: ((headerEmission l).map Tok.att
      ++ secToks l .OperationAttributes
      ++ secToks l .JobAttributes
      ++ secToks l .PrinterAttributes)

/-- The emission sequence of `write`: every attribute of the document
paired with its own group, in emission order — header attributes first,
then the Operation remainder, then the Job group, then the Printer
group. -/
def emissions (l : IppAttributeList) : List (DelimiterTag × IppAttribute) :=
  ((headerEmission l ++ secAttrs l .OperationAttributes).map
      (fun a => (DelimiterTag.OperationAttributes, a)))
    ++ (secAttrs l .JobAttributes).map (fun a => (DelimiterTag.JobAttributes, a))
    ++ (secAttrs l .PrinterAttributes).map
        (fun a => (DelimiterTag.PrinterAttributes, a))

theorem encodeToks_attList (as : List IppAttribute) :
    encodeToks (as.map Tok.att) = writeAttrs as := by
  induction as with
  | nil => rfl
  | cons a as ih => simp [encodeToks, encodeTok, writeAttrs, ih]

theorem headerBytes_optAttr (l : IppAttributeList) (h : List Nat) :
    headerBytes l h =
      encodeToks ((optAttr (l.get .OperationAttributes h)).map Tok.att) := by
  unfold headerBytes
  cases l.get .OperationAttributes h with
  | none => rfl
  | some a => simp [optAttr, encodeToks, encodeTok]

theorem groupBytes_secToks (l : IppAttributeList) (g : DelimiterTag) :
    groupBytes l g = encodeToks (secToks l g) := by
  unfold groupBytes secToks secAttrs
  cases hg : l.get_group g with
  | none => rfl
  | some attrs =>
    rw [encodeToks_append, encodeToks_attList]
    by_cases hop : g = DelimiterTag.OperationAttributes
    · simp [hop, encodeToks]
    · simp [hop, encodeToks, encodeTok]

/-- `IppAttributeList::write` emits exactly the token sequence
`toksOf`, followed by the end sentinel byte. -/
theorem write_eq_toks (l : IppAttributeList) :
    l.write = encodeToks (toksOf l)
      ++ [DelimiterTag.EndOfAttributes.toByte] := by
  unfold IppAttributeList.write toksOf
  simp only [HEADER_ATTRS, List.foldl_cons, List.foldl_nil, List.nil_append]
  rw [headerBytes_optAttr l ATTRIBUTES_CHARSET,
    headerBytes_optAttr l ATTRIBUTES_NATURAL_LANGUAGE,
    headerBytes_optAttr l PRINTER_URI,
    groupBytes_secToks l .OperationAttributes,
    groupBytes_secToks l .JobAttributes,
    groupBytes_secToks l .PrinterAttributes]
  simp [encodeToks, encodeTok, headerEmission, encodeToks_append,
    List.append_assoc]

/-! ## The shifted replay, stated on the emission sequence -/

/-- The group-attribution shift of the decoder, §4.3 of the spec: each
attribute of the emission sequence is recorded under the group of the
*next* emission (within a group section that is its own group; at a
section boundary it is the following group), and the last attribute
overall under its own group. -/
def addShift (rv : IppAttributeList) :
    List (DelimiterTag × IppAttribute) → IppAttributeList
  | [] => rv
  | [(d, a)] => rv.add d a
  | (_, a) :: (d', b) :: es => addShift (rv.add d' a) ((d', b) :: es)

theorem addShiftF_eq_addShift (rv : IppAttributeList) (fd : DelimiterTag)
    (es : List (DelimiterTag × IppAttribute))
    (h : ∀ p, es.getLast? = some p → p.1 = fd) :
    addShiftF rv fd es = addShift rv es := by
  induction es generalizing rv with
  | nil => rfl
  | cons x es ih =>
    cases es with
    | nil =>
      obtain ⟨d, a⟩ := x
      have hd : d = fd := h (d, a) rfl
      simp [addShiftF, addShift, hd]
    | cons y es2 =>
      have htail : ∀ p, (y :: es2).getLast? = some p → p.1 = fd := by
        intro p hp
        exact h p (by rwa [List.getLast?_cons_cons])
      obtain ⟨d, a⟩ := x
      obtain ⟨d', b⟩ := y
      show addShiftF (rv.add d' a) fd ((d', b) :: es2) =
        addShift (rv.add d' a) ((d', b) :: es2)
      exact ih (rv.add d' a) htail

theorem getLast_pair_fst {α : Type} (g : DelimiterTag) (as : List α)
    (p : DelimiterTag × α)
    (h : (as.map (fun a => (g, a))).getLast? = some p) : p.1 = g := by
  induction as with
  | nil => cases h
  | cons a as ih =>
    cases as with
    | nil =>
      simp only [List.map_cons, List.map_nil, List.getLast?_singleton,
        Option.some.injEq] at h
      rw [← h]
    | cons b bs =>
      rw [List.map_cons, List.map_cons, List.getLast?_cons_cons] at h
      exact ih h

/-! ## Emission and final-delimiter computation for `toksOf` -/

theorem secAttrs_ne_op (l : IppAttributeList) (g : DelimiterTag)
    (hg : g ≠ .OperationAttributes) (attrs : List IppAttribute)
    (h : l.get_group g = some attrs) : secAttrs l g = attrs := by
  unfold secAttrs
  rw [h]
  simp [hg]

theorem emsOf_secToks_ne (l : IppAttributeList) (g : DelimiterTag)
    (hg : g ≠ .OperationAttributes) (d : DelimiterTag) :
    emsOf (secToks l g) d = (secAttrs l g).map (fun a => (g, a)) := by
  unfold secToks
  cases h : l.get_group g with
  | none =>
    have : secAttrs l g = [] := by unfold secAttrs; rw [h]
    simp [emsOf, this]
  | some attrs =>
    simp only [hg, if_neg (fun hh => hg hh), List.cons_append,
      List.nil_append]
    show emsOf (.grp g :: (secAttrs l g).map Tok.att) d = _
    rw [emsOf]
    exact emsOf_attList _ g

theorem finalDelim_secToks_ne (l : IppAttributeList) (g : DelimiterTag)
    (hg : g ≠ .OperationAttributes) (d : DelimiterTag) :
    finalDelim (secToks l g) d =
      match l.get_group g with
      | none => d
      | some _ => g := by
  unfold secToks
  cases h : l.get_group g with
  | none => rfl
  | some attrs =>
    simp only [if_neg (fun hh => hg hh)]
    show finalDelim (.grp g :: (secAttrs l g).map Tok.att) d = g
    rw [finalDelim]
    exact finalDelim_attList _ g

theorem emsOf_secToks_op (l : IppAttributeList) :
    emsOf (secToks l .OperationAttributes) .OperationAttributes =
      (secAttrs l .OperationAttributes).map
        (fun a => (DelimiterTag.OperationAttributes, a)) := by
  unfold secToks
  cases h : l.get_group .OperationAttributes with
  | none =>
    have : secAttrs l .OperationAttributes = [] := by
      unfold secAttrs; rw [h]
    simp [emsOf, this]
  | some attrs =>
    simp only [if_pos rfl, List.nil_append]
    exact emsOf_attList _ _

theorem finalDelim_secToks_op (l : IppAttributeList) (d : DelimiterTag) :
    finalDelim (secToks l .OperationAttributes) d = d := by
  unfold secToks
  cases h : l.get_group .OperationAttributes with
  | none => rfl
  | some attrs =>
    simp only [if_pos rfl, List.nil_append]
    exact finalDelim_attList _ _

/-- The emission pairing of the serialized token stream: every record
is read while its own group's delimiter is current. -/
theorem emsOf_toksOf (l : IppAttributeList) (d0 : DelimiterTag) :
    emsOf (toksOf l) d0 = emissions l := by
  unfold toksOf emissions
  rw [emsOf]
  rw [emsOf_append, emsOf_append, emsOf_append]
  rw [finalDelim_append, finalDelim_append]
  rw [emsOf_attList, finalDelim_attList]
  rw [emsOf_secToks_op, finalDelim_secToks_op]
  rw [emsOf_secToks_ne l .JobAttributes (by decide)]
  rw [emsOf_secToks_ne l .PrinterAttributes (by decide)]
  simp [List.map_append, List.append_assoc]

theorem finalDelim_toksOf (l : IppAttributeList) (d0 : DelimiterTag) :
    finalDelim (toksOf l) d0 =
      match l.get_group .PrinterAttributes with
      | some _ => DelimiterTag.PrinterAttributes
      | none =>
        match l.get_group .JobAttributes with
        | some _ => DelimiterTag.JobAttributes
        | none => DelimiterTag.OperationAttributes := by
  unfold toksOf
  rw [finalDelim]
  rw [finalDelim_append, finalDelim_append, finalDelim_append]
  rw [finalDelim_attList, finalDelim_secToks_op]
  rw [finalDelim_secToks_ne l .JobAttributes (by decide)]
  rw [finalDelim_secToks_ne l .PrinterAttributes (by decide)]
  cases l.get_group .PrinterAttributes <;>
    cases l.get_group .JobAttributes <;> rfl

/-! ## Well-formed attribute lists -/

/-- A document fit for a round trip: every group entry belongs to one
of the three serialized groups, is non-empty (as any list built through
`add` is) and holds only well-formed scalar attributes. -/
def wfList (l : IppAttributeList) : Bool :=
  l.attributes.all (fun p =>
    (decide (p.1 = DelimiterTag.OperationAttributes)
      || decide (p.1 = DelimiterTag.JobAttributes)
      || decide (p.1 = DelimiterTag.PrinterAttributes))
    && decide (0 < p.2.length)
    && p.2.all IppAttribute.wfScalar)

theorem lookup_mem {m : List (DelimiterTag × List IppAttribute)}
    {g : DelimiterTag} {attrs : List IppAttribute}
    (h : m.lookup g = some attrs) : (g, attrs) ∈ m := by
  induction m with
  | nil => cases h
  | cons p m ih =>
    obtain ⟨k, v⟩ := p
    by_cases hk : g = k
    · subst hk
      have heq : List.lookup g ((g, v) :: m) = some v := by
        simp [List.lookup]
      rw [heq] at h
      cases h
      exact List.mem_cons_self _ _
    · have hb : (g == k) = false := beq_eq_false_iff_ne.mpr hk
      have heq : List.lookup g ((k, v) :: m) = List.lookup g m := by
        simp [List.lookup, hb]
      rw [heq] at h
      exact List.mem_cons_of_mem _ (ih h)

theorem lookupAttr_mem {attrs : List IppAttribute} {n : List Nat}
    {a : IppAttribute} (h : lookupAttr attrs n = some a) : a ∈ attrs := by
  induction attrs with
  | nil => cases h
  | cons b attrs ih =>
    unfold lookupAttr at h
    by_cases hb : b.name = n
    · rw [if_pos hb] at h
      cases h
      exact List.mem_cons_self _ _
    · rw [if_neg hb] at h
      exact List.mem_cons_of_mem _ (ih h)

theorem wfList_group_attrs {l : IppAttributeList} (hwf : wfList l = true)
    {g : DelimiterTag} {attrs : List IppAttribute}
    (h : l.get_group g = some attrs) :
    attrs ≠ [] ∧ ∀ a ∈ attrs, a.wfScalar = true := by
  have hmem : (g, attrs) ∈ l.attributes := lookup_mem h
  have := (List.all_eq_true.mp hwf) (g, attrs) hmem
  simp only [Bool.and_eq_true, decide_eq_true_eq,
    List.all_eq_true] at this
  exact ⟨List.ne_nil_of_length_pos this.1.2, this.2⟩

theorem wfList_get_wf {l : IppAttributeList} (hwf : wfList l = true)
    {g : DelimiterTag} {n : List Nat} {a : IppAttribute}
    (h : l.get g n = some a) : a.wfScalar = true := by
  unfold IppAttributeList.get at h
  cases hg : l.get_group g with
  | none => rw [hg] at h; cases h
  | some attrs =>
    rw [hg] at h
    exact (wfList_group_attrs hwf hg).2 a (lookupAttr_mem h)

theorem headerEmission_wf {l : IppAttributeList} (hwf : wfList l = true) :
    ∀ a ∈ headerEmission l, a.wfScalar = true := by
  intro a ha
  unfold headerEmission at ha
  simp only [List.mem_append] at ha
  rcases ha with (ha | ha) | ha <;>
  · unfold optAttr at ha
    split at ha
    · rename_i a' heq
      simp at ha
      subst ha
      exact wfList_get_wf hwf heq
    · cases ha

theorem secAttrs_wf {l : IppAttributeList} (hwf : wfList l = true)
    (g : DelimiterTag) : ∀ a ∈ secAttrs l g, a.wfScalar = true := by
  intro a ha
  unfold secAttrs at ha
  cases hg : l.get_group g with
  | none => rw [hg] at ha; cases ha
  | some attrs =>
    rw [hg] at ha
    exact (wfList_group_attrs hwf hg).2 a (List.mem_of_mem_filter ha)

theorem secToks_wf {l : IppAttributeList} (hwf : wfList l = true)
    (g : DelimiterTag) (hg : g ≠ .EndOfAttributes) :
    ∀ tk ∈ secToks l g, tk.wf = true := by
  intro tk htk
  unfold secToks at htk
  cases hgr : l.get_group g with
  | none => rw [hgr] at htk; cases htk
  | some attrs =>
    rw [hgr] at htk
    simp only [List.mem_append] at htk
    rcases htk with htk | htk
    · split at htk
      · cases htk
      · simp at htk
        subst htk
        simp [Tok.wf, hg]
    · obtain ⟨a, ha, rfl⟩ := List.mem_map.mp htk
      exact secAttrs_wf hwf g a ha

theorem toksOf_wf {l : IppAttributeList} (hwf : wfList l = true) :
    ∀ tk ∈ toksOf l, tk.wf = true := by
  intro tk htk
  unfold toksOf at htk
  rcases List.mem_cons.mp htk with rfl | htk
  · decide
  · simp only [List.mem_append] at htk
    rcases htk with ((htk | htk) | htk) | htk
    · obtain ⟨a, ha, rfl⟩ := List.mem_map.mp htk
      exact headerEmission_wf hwf a ha
    · exact secToks_wf hwf _ (by decide) tk htk
    · exact secToks_wf hwf _ (by decide) tk htk
    · exact secToks_wf hwf _ (by decide) tk htk

/-- Under `wfList`, the last emission's own group is the delimiter
current at the end of the token stream: the last non-empty group
section ends with its own records. -/
theorem emissions_getLast_fd {l : IppAttributeList} (hwf : wfList l = true) :
    ∀ p, (emissions l).getLast? = some p →
      p.1 = finalDelim (toksOf l) .EndOfAttributes := by
  intro p hp
  rw [finalDelim_toksOf]
  unfold emissions at hp
  cases hP : l.get_group .PrinterAttributes with
  | some attrsP =>
    have hPne : attrsP ≠ [] := (wfList_group_attrs hwf hP).1
    have hsec : secAttrs l .PrinterAttributes = attrsP :=
      secAttrs_ne_op l _ (by decide) attrsP hP
    have hne : (secAttrs l .PrinterAttributes).map
        (fun a => (DelimiterTag.PrinterAttributes, a)) ≠ [] := by
      rw [hsec]
      simpa using hPne
    rw [List.getLast?_append_of_ne_nil _ hne] at hp
    exact getLast_pair_fst _ _ _ hp
  | none =>
    have hsecP : secAttrs l .PrinterAttributes = [] := by
      unfold secAttrs; rw [hP]
    rw [hsecP] at hp
    simp only [List.map_nil, List.append_nil] at hp
    cases hJ : l.get_group .JobAttributes with
    | some attrsJ =>
      have hJne : attrsJ ≠ [] := (wfList_group_attrs hwf hJ).1
      have hsec : secAttrs l .JobAttributes = attrsJ :=
        secAttrs_ne_op l _ (by decide) attrsJ hJ
      have hne : (secAttrs l .JobAttributes).map
          (fun a => (DelimiterTag.JobAttributes, a)) ≠ [] := by
        rw [hsec]
        simpa using hJne
      rw [List.getLast?_append_of_ne_nil _ hne] at hp
      exact getLast_pair_fst _ _ _ hp
    | none =>
      have hsecJ : secAttrs l .JobAttributes = [] := by
        unfold secAttrs; rw [hJ]
      rw [hsecJ] at hp
      simp only [List.map_nil, List.append_nil] at hp
      exact getLast_pair_fst _ _ _ hp

/-- Full parse of a header followed by a token-encoded attribute
section and the end sentinel. -/
theorem parse_attrStream (input : List Nat) (hdr : IppHeader)
    (ts : List Tok) (hwf : ∀ tk ∈ ts, tk.wf = true)
    (hin : IppHeader.from_reader input =
      some (hdr, encodeToks ts ++ [DelimiterTag.EndOfAttributes.toByte])) :
    IppParser.parse input =
      .ok (⟨hdr, endFlush (ts.foldl tokStep initState)⟩, []) := by
  unfold IppParser.parse
  rw [hin]
  dsimp only
  rw [parseLoop_toks ts hwf _ initState, parseLoop_end]

/-- **C1** (round-trip): for every well-formed `IppAttributeList` with
attributes across the three groups, parsing the byte stream that
`IppAttributeList::write` produces (behind any protocol header)
succeeds and reproduces the document's group→name→value mapping modulo
the group-attribution subtlety: the result equals the replay
`addShift` of the emission sequence `emissions l` (each attribute of
`l` paired with its own group, in emission order), in which every
attribute is recorded under the group of the next emission — its own
group inside a group section, the following group's key at a section
boundary — and the last attribute under its own group. -/
theorem claim_C1_roundtrip (l : IppAttributeList) (hwf : wfList l = true)
    (input : List Nat) (hdr : IppHeader)
    (hin : IppHeader.from_reader input = some (hdr, l.write)) :
    IppParser.parse input =
      .ok (⟨hdr, addShift IppAttributeList.new (emissions l)⟩, []) := by
  rw [write_eq_toks] at hin
  rw [parse_attrStream input hdr (toksOf l) (toksOf_wf hwf) hin]
  have hfold :
      endFlush ((toksOf l).foldl tokStep initState) =
        addShiftF IppAttributeList.new
          (finalDelim (toksOf l) .EndOfAttributes)
          (emsOf (toksOf l) .EndOfAttributes) :=
    foldl_tokStep_none (toksOf l) (toksOf_wf hwf) .EndOfAttributes
      IppAttributeList.new
  rw [hfold, emsOf_toksOf]
  rw [addShiftF_eq_addShift _ _ _ (fun p hp => emissions_getLast_fd hwf p hp)]

/-- A sample document for the round-trip: header attributes plus an
ordinary Operation attribute, a Job attribute and a Printer
attribute. -/
def sampleList : IppAttributeList :=
  ((((IppAttributeList.new.add .OperationAttributes
      ⟨ATTRIBUTES_CHARSET, .Other 0x47 [117, 116, 102, 45, 56]⟩).add
      .OperationAttributes
      ⟨PRINTER_URI, .Other 0x45 [105, 112, 112]⟩).add
      .OperationAttributes
      ⟨[102, 111, 111], .Other 0x44 [1, 2]⟩).add
      .JobAttributes
      ⟨[106, 105, 100], .Other 0x21 [0, 0, 0, 9]⟩).add
      .PrinterAttributes
      ⟨[112, 110], .Other 0x42 [112, 49]⟩

/-- A sample 8-byte protocol header (version 1.1, status 0, request
id 1). -/
def sampleHdrBytes : List Nat := [1, 1, 0, 0, 0, 0, 0, 1]

theorem claim_C1_roundtrip_witness :
    wfList sampleList = true ∧
    IppParser.parse (sampleHdrBytes ++ sampleList.write) =
      .ok (⟨⟨257, 0, 1⟩, addShift IppAttributeList.new
        (emissions sampleList)⟩, []) :=
  ⟨by decide,
   claim_C1_roundtrip sampleList (by decide)
     (sampleHdrBytes ++ sampleList.write) ⟨257, 0, 1⟩ rfl⟩

/-- **C5** (malformed tag): a byte that is neither a known delimiter
tag nor a known value tag makes `parse` fail with the tag error
carrying that byte.  The loop-level part holds for every state and
every continuation of the stream, so nothing after the offending byte
is consumed and no partial result is returned; the parse-level part
propagates the same error through `IppParser::parse`. -/
theorem claim_C5_tagError (b : Nat) (hd : is_delimiter_tag b = false)
    (hv : is_value_tag b = false) :
    (∀ (rest : List Nat) (st : ParserState),
      parseLoop (b :: rest) st = .error (.tagError b)) ∧
    (∀ (input : List Nat) (hdr : IppHeader) (rest : List Nat),
      IppHeader.from_reader input = some (hdr, b :: rest) →
      IppParser.parse input = .error (.tagError b)) := by
  refine ⟨fun rest st => parseLoop_tagError hd hv rest st, ?_⟩
  intro input hdr rest hin
  unfold IppParser.parse
  rw [hin]
  dsimp only
  rw [parseLoop_tagError hd hv rest initState]

theorem claim_C5_tagError_witness :
    is_delimiter_tag 8 = false ∧ is_value_tag 8 = false ∧
    parseLoop (8 :: [1, 2, 3]) initState = .error (.tagError 8) :=
  ⟨by decide, by decide,
   (claim_C5_tagError 8 (by decide) (by decide)).1 [1, 2, 3] initState⟩

/-- Folding a sequence of group-delimiter tokens only moves the
current delimiter to the last of them. -/
theorem foldl_tokStep_grps (ds : List DelimiterTag) (st : ParserState) :
    (ds.map Tok.grp).foldl tokStep st =
      { st with delimiter := ds.getLastD st.delimiter } := by
  induction ds generalizing st with
  | nil => rfl
  | cons g ds ih =>
    rw [List.map_cons, List.foldl_cons]
    have hstep : tokStep st (Tok.grp g) = { st with delimiter := g } := rfl
    rw [hstep, ih { st with delimiter := g }]
    rw [List.getLastD_cons]

/-- **C2** (group attribution at flush time): when one or more group
delimiters are followed by a value record with a nonzero-length name
while an attribute is pending, the pending attribute is recorded under
the group current at flush time — the *last* delimiter seen — and not
under the group that was current while its values were read. -/
theorem claim_C2_group_attribution (d : DelimiterTag) (ds : List DelimiterTag)
    (hds : ∀ x ∈ d :: ds, x ≠ DelimiterTag.EndOfAttributes)
    (a : IppAttribute) (ha : a.wfScalar = true)
    (st : ParserState) (vals : List IppValue) (ln : List Nat)
    (hstack : st.stack = [vals]) (hpend : st.last_name = some ln)
    (rest : List Nat) :
    parseLoop (encodeToks ((d :: ds).map Tok.grp) ++ (a.write ++ rest)) st =
      parseLoop rest
        ⟨ds.getLastD d, [[a.value]],
          st.retval.add (ds.getLastD d) ⟨ln, list_to_value vals⟩,
          some a.name⟩ := by
  have hts : ∀ tk ∈ (d :: ds).map Tok.grp ++ [Tok.att a], tk.wf = true := by
    intro tk htk
    rcases List.mem_append.mp htk with htk | htk
    · obtain ⟨g, hg, rfl⟩ := List.mem_map.mp htk
      simpa [Tok.wf] using hds g hg
    · simp only [List.mem_singleton] at htk
      subst htk
      exact ha
  have hshape : encodeToks ((d :: ds).map Tok.grp) ++ (a.write ++ rest) =
      encodeToks ((d :: ds).map Tok.grp ++ [Tok.att a]) ++ rest := by
    rw [encodeToks_append]
    simp [encodeToks, encodeTok]
  rw [hshape, parseLoop_toks _ hts rest st, List.foldl_append]
  rw [foldl_tokStep_grps]
  obtain ⟨dst, stk, rv, pend⟩ := st
  simp only at hstack hpend
  subst hstack
  subst hpend
  rw [List.foldl_cons, List.foldl_nil]
  rw [tokStep_att_pending a ha _ vals rv ln]
  rw [List.getLastD_cons]

theorem claim_C2_group_attribution_witness :
    IppAttribute.wfScalar ⟨[120], .Other 0x21 [0, 0, 0, 7]⟩ = true ∧
    parseLoop
        (encodeToks ([DelimiterTag.JobAttributes,
            DelimiterTag.PrinterAttributes].map Tok.grp)
          ++ (IppAttribute.write ⟨[120], .Other 0x21 [0, 0, 0, 7]⟩ ++ [3]))
        ⟨.OperationAttributes, [[IppValue.Other 0x44 [1]]],
          IppAttributeList.new, some [119]⟩ =
      parseLoop [3]
        ⟨.PrinterAttributes, [[IppValue.Other 0x21 [0, 0, 0, 7]]],
          IppAttributeList.new.add .PrinterAttributes
            ⟨[119], list_to_value [IppValue.Other 0x44 [1]]⟩,
          some [120]⟩ :=
  ⟨by decide,
   claim_C2_group_attribution .JobAttributes [.PrinterAttributes]
     (by decide) ⟨[120], .Other 0x21 [0, 0, 0, 7]⟩ (by decide)
     ⟨.OperationAttributes, [[IppValue.Other 0x44 [1]]],
       IppAttributeList.new, some [119]⟩
     [IppValue.Other 0x44 [1]] [119] rfl rfl [3]⟩

theorem addShiftF_constGroup (fd : DelimiterTag) (as : List IppAttribute)
    (rv : IppAttributeList) :
    addShiftF rv fd (as.map (fun a => (fd, a))) =
      as.foldl (fun r a => r.add fd a) rv := by
  induction as generalizing rv with
  | nil => rfl
  | cons a as ih =>
    cases as with
    | nil => rfl
    | cons b bs =>
      show addShiftF (rv.add fd a) fd ((b :: bs).map (fun a => (fd, a))) = _
      rw [ih (rv.add fd a)]
      rfl

/-- **C10** (attributes before any delimiter): a stream whose attribute
section starts with value records before any group delimiter parses
successfully — the current group is initialized to the end sentinel, so
every attribute accumulated before the first delimiter is recorded
under the `EndOfAttributes` group key. -/
theorem claim_C10_endGroup (as : List IppAttribute)
    (hwf : ∀ a ∈ as, a.wfScalar = true)
    (input : List Nat) (hdr : IppHeader)
    (hin : IppHeader.from_reader input =
      some (hdr, writeAttrs as ++ [DelimiterTag.EndOfAttributes.toByte])) :
    IppParser.parse input =
      .ok (⟨hdr, as.foldl
        (fun rv a => rv.add .EndOfAttributes a) IppAttributeList.new⟩,
        []) := by
  have hts : ∀ tk ∈ as.map Tok.att, tk.wf = true := by
    intro tk htk
    obtain ⟨a, ha, rfl⟩ := List.mem_map.mp htk
    exact hwf a ha
  rw [← encodeToks_attList] at hin
  rw [parse_attrStream input hdr (as.map Tok.att) hts hin]
  have hfold : endFlush ((as.map Tok.att).foldl tokStep initState) =
      addShiftF IppAttributeList.new
        (finalDelim (as.map Tok.att) .EndOfAttributes)
        (emsOf (as.map Tok.att) .EndOfAttributes) :=
    foldl_tokStep_none (as.map Tok.att) hts .EndOfAttributes
      IppAttributeList.new
  rw [hfold, emsOf_attList, finalDelim_attList, addShiftF_constGroup]

theorem claim_C10_endGroup_witness :
    (∀ a ∈ [(⟨[120], .Other 0x21 [0, 0, 0, 7]⟩ : IppAttribute),
        ⟨[121], .Other 0x44 [9]⟩], a.wfScalar = true) ∧
    IppParser.parse (sampleHdrBytes
        ++ (writeAttrs [⟨[120], .Other 0x21 [0, 0, 0, 7]⟩,
              ⟨[121], .Other 0x44 [9]⟩]
          ++ [DelimiterTag.EndOfAttributes.toByte])) =
      .ok (⟨⟨257, 0, 1⟩,
        [(⟨[120], .Other 0x21 [0, 0, 0, 7]⟩ : IppAttribute),
          ⟨[121], .Other 0x44 [9]⟩].foldl
          (fun rv a => rv.add .EndOfAttributes a) IppAttributeList.new⟩,
        []) :=
  ⟨by decide,
   claim_C10_endGroup
     [⟨[120], .Other 0x21 [0, 0, 0, 7]⟩, ⟨[121], .Other 0x44 [9]⟩]
     (by decide) _ ⟨257, 0, 1⟩ rfl⟩

/-! ## Zero-length-name continuation records -/

/-- A continuation or member record: an ordinary scalar value tag with
an encodable payload (not a structural collection tag). -/
def wfContRec (p : Nat × List Nat) : Bool :=
  is_value_tag p.1 && !decide (p.1 = begCollectionByte)
    && !decide (p.1 = endCollectionByte) && decide (p.2.length < 65536)

/-- The bytes of a run of zero-length-name records. -/
def contBytes : List (Nat × List Nat) → List Nat
  | [] => []
  | p :: vs => recBytes p.1 [] p.2 ++ contBytes vs

/-- A run of zero-length-name scalar records appends its values, in
wire order, to the innermost level of the value stack; the pending name
and the result list are untouched. -/
theorem parseLoop_contRecords (vs : List (Nat × List Nat))
    (hwf : ∀ p ∈ vs, wfContRec p = true) (rest : List Nat)
    (d : DelimiterTag) (vals : List IppValue) (stk : List (List IppValue))
    (rv : IppAttributeList) (pn : Option (List Nat)) :
    parseLoop (contBytes vs ++ rest) ⟨d, vals :: stk, rv, pn⟩ =
      parseLoop rest
        ⟨d, (vals ++ vs.map (fun q => IppValue.Other q.1 q.2)) :: stk,
          rv, pn⟩ := by
  induction vs generalizing vals with
  | nil => simp [contBytes]
  | cons p vs ih =>
    have hp : wfContRec p = true := hwf p (List.mem_cons_self p vs)
    have hvs : ∀ q ∈ vs, wfContRec q = true := fun q hq =>
      hwf q (List.mem_cons_of_mem p hq)
    simp only [wfContRec, Bool.and_eq_true, Bool.not_eq_true',
      decide_eq_true_eq, decide_eq_false_iff_not] at hp
    obtain ⟨⟨⟨hv, hbeg⟩, hend⟩, hlen⟩ := hp
    have hshape : contBytes (p :: vs) ++ rest =
        recBytes p.1 [] p.2 ++ (contBytes vs ++ rest) := by
      simp [contBytes]
    rw [hshape, parseLoop_record hv ([] : List Nat) p.2 (by simp) hlen]
    have hstep : stepValue p.1 ([] : List Nat).length [] (.Other p.1 p.2)
        ⟨d, vals :: stk, rv, pn⟩ =
        ⟨d, (vals ++ [IppValue.Other p.1 p.2]) :: stk, rv, pn⟩ := by
      simp [stepValue, hbeg, hend]
    rw [hstep, ih hvs (vals ++ [IppValue.Other p.1 p.2])]
    simp

/-- **C4** (array collapsing): an attribute record followed by a run of
zero-length-name continuation records accumulates all the values in
wire order; at the flush, one accumulated value is stored as that
scalar value itself, and `N > 1` accumulated values are stored as an
`N`-element `ListOf` array preserving the original order. -/
theorem claim_C4_arrayCollapse (g : DelimiterTag)
    (hg : g ≠ DelimiterTag.EndOfAttributes)
    (n : List Nat) (t0 : Nat) (d0 : List Nat)
    (hhead : IppAttribute.wfScalar ⟨n, .Other t0 d0⟩ = true)
    (vs : List (Nat × List Nat)) (hvs : ∀ p ∈ vs, wfContRec p = true)
    (input : List Nat) (hdr : IppHeader)
    (hin : IppHeader.from_reader input = some (hdr,
      g.toByte :: (recBytes t0 n d0 ++ (contBytes vs
        ++ [DelimiterTag.EndOfAttributes.toByte])))) :
    IppParser.parse input =
      .ok (⟨hdr, IppAttributeList.new.add g
        ⟨n, list_to_value (.Other t0 d0
          :: vs.map (fun q => IppValue.Other q.1 q.2))⟩⟩, []) ∧
    (vs = [] →
      list_to_value (.Other t0 d0
        :: vs.map (fun q => IppValue.Other q.1 q.2)) = .Other t0 d0) ∧
    (vs ≠ [] →
      list_to_value (.Other t0 d0
        :: vs.map (fun q => IppValue.Other q.1 q.2)) =
        .ListOf (.Other t0 d0
          :: vs.map (fun q => IppValue.Other q.1 q.2))) := by
  refine ⟨?_, ?_, ?_⟩
  · unfold IppParser.parse
    rw [hin]
    dsimp only
    rw [parseLoop_delim g hg]
    have hwf' := hhead
    simp only [IppAttribute.wfScalar, Bool.and_eq_true, Bool.not_eq_true',
      decide_eq_true_eq, decide_eq_false_iff_not] at hwf'
    obtain ⟨⟨hne, hn⟩, ⟨⟨hv, hbeg⟩, hend⟩, hd⟩ := hwf'
    rw [parseLoop_record hv n d0 hn hd]
    have hstep : stepValue t0 n.length n (.Other t0 d0)
        { initState with delimiter := g } =
        ⟨g, [[IppValue.Other t0 d0]], IppAttributeList.new, some n⟩ := by
      have hpos : n.length > 0 := List.length_pos.mpr hne
      simp [stepValue, initState, hpos, hbeg, hend]
    rw [hstep]
    rw [parseLoop_contRecords vs hvs _ g [IppValue.Other t0 d0] []
      IppAttributeList.new (some n)]
    rw [parseLoop_end]
    rfl
  · intro hnil
    subst hnil
    rfl
  · intro hne
    cases vs with
    | nil => exact absurd rfl hne
    | cons p vs => rfl

theorem claim_C4_arrayCollapse_witness :
    IppAttribute.wfScalar ⟨[113], .Other 0x21 [0, 0, 0, 1]⟩ = true ∧
    (∀ p ∈ [((0x21 : Nat), [0, 0, 0, 2]), (0x21, [0, 0, 0, 3])],
      wfContRec p = true) ∧
    IppParser.parse (sampleHdrBytes
        ++ (DelimiterTag.OperationAttributes.toByte
          :: (recBytes 0x21 [113] [0, 0, 0, 1]
            ++ (contBytes [(0x21, [0, 0, 0, 2]), (0x21, [0, 0, 0, 3])]
              ++ [DelimiterTag.EndOfAttributes.toByte])))) =
      .ok (⟨⟨257, 0, 1⟩, IppAttributeList.new.add .OperationAttributes
        ⟨[113], list_to_value (.Other 0x21 [0, 0, 0, 1]
          :: ([((0x21 : Nat), [0, 0, 0, 2]),
              (0x21, [0, 0, 0, 3])]).map
            (fun q => IppValue.Other q.1 q.2))⟩⟩, []) :=
  ⟨by decide, by decide,
   (claim_C4_arrayCollapse .OperationAttributes (by decide)
     [113] 0x21 [0, 0, 0, 1] (by decide)
     [(0x21, [0, 0, 0, 2]), (0x21, [0, 0, 0, 3])] (by decide)
     (sampleHdrBytes
       ++ (DelimiterTag.OperationAttributes.toByte
         :: (recBytes 0x21 [113] [0, 0, 0, 1]
           ++ (contBytes [(0x21, [0, 0, 0, 2]), (0x21, [0, 0, 0, 3])]
             ++ [DelimiterTag.EndOfAttributes.toByte]))))
     ⟨257, 0, 1⟩ rfl).1⟩

/-! ## Collections (C6) -/

/-- **C6**, amended (collection nesting): an attribute record tagged
`BegCollection` followed by two zero-length-name scalar member records
and a zero-length-name `EndCollection` record decodes to a single
nested `Collection` value attached to the enclosing attribute's name,
preserving the two inner values in order.  (Inner records must carry
zero-length names; a nonzero inner name flushes the enclosing
attribute early, see the counterexample.) -/
theorem claim_C6_collection (n : List Nat) (hne : n ≠ [])
    (hn : n.length < 65536)
    (p1 p2 : Nat × List Nat) (h1 : wfContRec p1 = true)
    (h2 : wfContRec p2 = true)
    (g : DelimiterTag) (hg : g ≠ DelimiterTag.EndOfAttributes)
    (input : List Nat) (hdr : IppHeader)
    (hin : IppHeader.from_reader input = some (hdr,
      g.toByte :: (recBytes begCollectionByte n []
        ++ (contBytes [p1, p2]
          ++ (recBytes endCollectionByte [] []
            ++ [DelimiterTag.EndOfAttributes.toByte]))))) :
    IppParser.parse input =
      .ok (⟨hdr, IppAttributeList.new.add g
        ⟨n, .Collection [.Other p1.1 p1.2, .Other p2.1 p2.2]⟩⟩, []) := by
  unfold IppParser.parse
  rw [hin]
  dsimp only
  rw [parseLoop_delim g hg]
  rw [parseLoop_record (by decide) n ([] : List Nat) hn (by decide)]
  have hstep1 : stepValue begCollectionByte n.length n
      (.Other begCollectionByte []) { initState with delimiter := g } =
      ⟨g, [[], []], IppAttributeList.new, some n⟩ := by
    have hpos : n.length > 0 := List.length_pos.mpr hne
    simp [stepValue, initState, hpos, begCollectionByte]
  rw [hstep1]
  rw [parseLoop_contRecords [p1, p2] (by
      intro p hp
      rcases List.mem_cons.mp hp with rfl | hp
      · exact h1
      · rcases List.mem_cons.mp hp with rfl | hp
        · exact h2
        · cases hp)
    _ g [] [[]] IppAttributeList.new (some n)]
  rw [parseLoop_record (by decide) ([] : List Nat) ([] : List Nat)
    (by decide) (by decide)]
  have hstep2 : stepValue endCollectionByte ([] : List Nat).length []
      (.Other endCollectionByte [])
      ⟨g, ([] ++ [p1, p2].map (fun q => IppValue.Other q.1 q.2)) :: [[]],
        IppAttributeList.new, some n⟩ =
      ⟨g, [[IppValue.Collection [.Other p1.1 p1.2, .Other p2.1 p2.2]]],
        IppAttributeList.new, some n⟩ := by
    simp [stepValue, endCollectionByte, begCollectionByte]
  rw [hstep2, parseLoop_end]
  rfl

theorem claim_C6_collection_witness :
    ([99] : List Nat) ≠ [] ∧
    wfContRec (0x21, [0, 0, 0, 5]) = true ∧
    wfContRec (0x44, [57]) = true ∧
    IppParser.parse (sampleHdrBytes
        ++ (DelimiterTag.OperationAttributes.toByte
          :: (recBytes begCollectionByte [99] []
            ++ (contBytes [(0x21, [0, 0, 0, 5]), (0x44, [57])]
              ++ (recBytes endCollectionByte [] []
                ++ [DelimiterTag.EndOfAttributes.toByte]))))) =
      .ok (⟨⟨257, 0, 1⟩, IppAttributeList.new.add .OperationAttributes
        ⟨[99], .Collection [.Other 0x21 [0, 0, 0, 5],
          .Other 0x44 [57]]⟩⟩, []) :=
  ⟨by decide, by decide, by decide,
   claim_C6_collection [99] (by decide) (by decide)
     (0x21, [0, 0, 0, 5]) (0x44, [57]) (by decide) (by decide)
     .OperationAttributes (by decide)
     (sampleHdrBytes
       ++ (DelimiterTag.OperationAttributes.toByte
         :: (recBytes begCollectionByte [99] []
           ++ (contBytes [(0x21, [0, 0, 0, 5]), (0x44, [57])]
             ++ (recBytes endCollectionByte [] []
               ++ [DelimiterTag.EndOfAttributes.toByte])))))
     ⟨257, 0, 1⟩ rfl⟩

/-- The input of the C6 counterexample: a `BegCollection` record named
`"c"`, then two scalar records with the *nonzero-length* names `"a"`
and `"b"` (values `5` and `6`), an `EndCollection` record, and the end
sentinel — the literal reading of "a `BeginCollection` tag followed by
two scalar attribute records and then an `EndCollection` tag". -/
def c6input : List Nat :=
  sampleHdrBytes
    ++ (DelimiterTag.OperationAttributes.toByte
      :: (recBytes begCollectionByte [99] []
        ++ (recBytes 0x44 [97] [5]
          ++ (recBytes 0x44 [98] [6]
            ++ (recBytes endCollectionByte [] []
              ++ [DelimiterTag.EndOfAttributes.toByte])))))

/-- **C6**, counterexample: on a collection whose two inner records
carry nonzero-length names, `parse` does *not* produce a single
nested-collection value attached to the enclosing name `"c"`.  The
first inner name flushes the enclosing attribute as the empty array
`ListOf []`, the first inner attribute `"a"` becomes a top-level
scalar attribute, and only the second inner value ends up wrapped in a
collection attached to `"b"` — three attributes instead of one, with
the two inner name/value pairs not preserved under `"c"`. -/
theorem claim_C6_counterexample :
    IppParser.parse c6input =
      .ok (⟨⟨257, 0, 1⟩,
        ⟨[(DelimiterTag.OperationAttributes,
          [⟨[99], .ListOf []⟩, ⟨[97], .Other 0x44 [5]⟩,
           ⟨[98], .Collection [.Other 0x44 [6]]⟩])]⟩⟩, []) ∧
    (IppAttributeList.mk [(DelimiterTag.OperationAttributes,
        [⟨[99], .ListOf []⟩, ⟨[97], .Other 0x44 [5]⟩,
         ⟨[98], .Collection [.Other 0x44 [6]]⟩])]).get
      .OperationAttributes [99] = some ⟨[99], .ListOf []⟩ := by
  constructor
  · unfold IppParser.parse
    have hh : IppHeader.from_reader c6input = some (⟨257, 0, 1⟩,
        DelimiterTag.OperationAttributes.toByte
          :: (recBytes begCollectionByte [99] []
            ++ (recBytes 0x44 [97] [5]
              ++ (recBytes 0x44 [98] [6]
                ++ (recBytes endCollectionByte [] []
                  ++ [DelimiterTag.EndOfAttributes.toByte]))))) := rfl
    rw [hh]
    dsimp only
    rw [parseLoop_delim .OperationAttributes (by decide)]
    rw [parseLoop_record (t := begCollectionByte) (by decide)
      [99] ([] : List Nat) (by decide) (by decide)]
    rw [parseLoop_record (t := 0x44) (by decide)
      [97] [5] (by decide) (by decide)]
    rw [parseLoop_record (t := 0x44) (by decide)
      [98] [6] (by decide) (by decide)]
    rw [parseLoop_record (t := endCollectionByte) (by decide)
      ([] : List Nat) ([] : List Nat) (by decide) (by decide)]
    rw [parseLoop_end]
    rfl
  · rfl

/-! ## Unbalanced collection tags (C8) -/

/-- The input of the C8 closed instance: the Operation delimiter, an
unmatched zero-length-name `EndCollection` record, one more scalar
value record arriving while the stack is empty, and the end
sentinel. -/
def c8input : List Nat :=
  sampleHdrBytes
    ++ (DelimiterTag.OperationAttributes.toByte
      :: (recBytes endCollectionByte [] []
        ++ (recBytes 0x21 [] [0, 0, 0, 5]
          ++ [DelimiterTag.EndOfAttributes.toByte])))

/-- **C8** (unbalanced collection tags are not an error): an
`EndCollection` record arriving when only the base level of the value
stack remains pops that level and silently discards the wrapped
collection, leaving the stack empty; a value record arriving while the
stack is empty is likewise silently dropped, leaving the whole state
unchanged; and a stream doing exactly that still parses to `Ok` with
an empty result instead of a malformed-nesting error. -/
theorem claim_C8_unbalanced :
    (∀ (rest : List Nat) (st : ParserState) (vals : List IppValue),
      st.stack = [vals] →
      parseLoop (recBytes endCollectionByte [] [] ++ rest) st =
        parseLoop rest { st with stack := [] }) ∧
    (∀ (rest : List Nat) (st : ParserState) (t : Nat) (dt : List Nat),
      wfContRec (t, dt) = true → st.stack = [] →
      parseLoop (recBytes t [] dt ++ rest) st = parseLoop rest st) ∧
    IppParser.parse c8input =
      .ok (⟨⟨257, 0, 1⟩, IppAttributeList.new⟩, []) := by
  refine ⟨?_, ?_, ?_⟩
  · intro rest st vals hstack
    rw [parseLoop_record (by decide) ([] : List Nat) ([] : List Nat)
      (by decide) (by decide)]
    obtain ⟨d, stk, rv, pn⟩ := st
    simp only at hstack
    subst hstack
    have hstep : stepValue endCollectionByte ([] : List Nat).length []
        (.Other endCollectionByte []) ⟨d, [vals], rv, pn⟩ =
        ⟨d, [], rv, pn⟩ := by
      simp [stepValue, endCollectionByte, begCollectionByte]
    rw [hstep]
  · intro rest st t dt hwf hstack
    simp only [wfContRec, Bool.and_eq_true, Bool.not_eq_true',
      decide_eq_true_eq, decide_eq_false_iff_not] at hwf
    obtain ⟨⟨⟨hv, hbeg⟩, hend⟩, hlen⟩ := hwf
    rw [parseLoop_record hv ([] : List Nat) dt (by simp) hlen]
    obtain ⟨d, stk, rv, pn⟩ := st
    simp only at hstack
    subst hstack
    have hstep : stepValue t ([] : List Nat).length [] (.Other t dt)
        ⟨d, [], rv, pn⟩ = ⟨d, [], rv, pn⟩ := by
      simp [stepValue, hbeg, hend]
    rw [hstep]
  · unfold IppParser.parse
    have hh : IppHeader.from_reader c8input = some (⟨257, 0, 1⟩,
        DelimiterTag.OperationAttributes.toByte
          :: (recBytes endCollectionByte [] []
            ++ (recBytes 0x21 [] [0, 0, 0, 5]
              ++ [DelimiterTag.EndOfAttributes.toByte]))) := rfl
    rw [hh]
    dsimp only
    rw [parseLoop_delim .OperationAttributes (by decide)]
    rw [parseLoop_record (t := endCollectionByte) (by decide)
      ([] : List Nat) ([] : List Nat) (by decide) (by decide)]
    rw [parseLoop_record (t := 0x21) (by decide)
      ([] : List Nat) [0, 0, 0, 5] (by decide) (by decide)]
    rw [parseLoop_end]
    rfl

theorem claim_C8_unbalanced_witness :
    (⟨.OperationAttributes, [[IppValue.Other 0x21 [0, 0, 0, 5]]],
        IppAttributeList.new, none⟩ : ParserState).stack =
      [[IppValue.Other 0x21 [0, 0, 0, 5]]] ∧
    parseLoop (recBytes endCollectionByte [] [] ++ [3])
        ⟨.OperationAttributes, [[IppValue.Other 0x21 [0, 0, 0, 5]]],
          IppAttributeList.new, none⟩ =
      parseLoop [3]
        { (⟨.OperationAttributes, [[IppValue.Other 0x21 [0, 0, 0, 5]]],
            IppAttributeList.new, none⟩ : ParserState) with
          stack := [] } :=
  ⟨rfl,
   claim_C8_unbalanced.1 [3]
     ⟨.OperationAttributes, [[IppValue.Other 0x21 [0, 0, 0, 5]]],
       IppAttributeList.new, none⟩
     [IppValue.Other 0x21 [0, 0, 0, 5]] rfl⟩

/-! ## `add`/`get` interaction (C7) -/

theorem lookupAttr_insertAttr_same (attrs : List IppAttribute)
    (a : IppAttribute) :
    lookupAttr (insertAttr attrs a) a.name = some a := by
  induction attrs with
  | nil => simp [insertAttr, lookupAttr]
  | cons b attrs ih =>
    by_cases hb : b.name = a.name
    · simp [insertAttr, hb, lookupAttr]
    · simp [insertAttr, hb, lookupAttr, ih]

theorem lookupAttr_insertAttr_other (attrs : List IppAttribute)
    (a : IppAttribute) (n : List Nat) (h : n ≠ a.name) :
    lookupAttr (insertAttr attrs a) n = lookupAttr attrs n := by
  have han : ¬(a.name = n) := fun hh => h hh.symm
  induction attrs with
  | nil => simp [insertAttr, lookupAttr, han]
  | cons b attrs ih =>
    by_cases hb : b.name = a.name
    · have hbn : ¬(b.name = n) := by rw [hb]; exact han
      simp [insertAttr, hb, lookupAttr, han, hbn]
    · by_cases hbn : b.name = n
      · simp [insertAttr, hb, lookupAttr, hbn, h]
      · simp [insertAttr, hb, lookupAttr, hbn, ih]

theorem get_group_add_same (l : IppAttributeList) (g : DelimiterTag)
    (a : IppAttribute) :
    (l.add g a).get_group g =
      some (insertAttr ((l.get_group g).getD []) a) := by
  show (insertGroup l.attributes g a).lookup g =
    some (insertAttr ((l.attributes.lookup g).getD []) a)
  induction l.attributes with
  | nil => simp [insertGroup, List.lookup, insertAttr]
  | cons p m ih =>
    obtain ⟨g', attrs⟩ := p
    by_cases hg : g' = g
    · subst hg
      simp [insertGroup, List.lookup]
    · have hb : (g == g') = false := beq_eq_false_iff_ne.mpr
        (fun hh => hg hh.symm)
      simp [insertGroup, hg, List.lookup, hb, ih]

theorem get_group_add_other (l : IppAttributeList) (g g' : DelimiterTag)
    (a : IppAttribute) (h : g' ≠ g) :
    (l.add g a).get_group g' = l.get_group g' := by
  show (insertGroup l.attributes g a).lookup g' = l.attributes.lookup g'
  induction l.attributes with
  | nil =>
    have hb : (g' == g) = false := beq_eq_false_iff_ne.mpr h
    simp [insertGroup, List.lookup, hb]
  | cons p m ih =>
    obtain ⟨g'', attrs⟩ := p
    by_cases hg : g'' = g
    · subst hg
      have hb : (g' == g'') = false := beq_eq_false_iff_ne.mpr h
      simp [insertGroup, List.lookup, hb]
    · by_cases hg2 : g' = g''
      · subst hg2
        simp [insertGroup, hg, List.lookup]
      · have hb : (g' == g'') = false := beq_eq_false_iff_ne.mpr hg2
        simp [insertGroup, hg, List.lookup, hb, ih]

theorem get_add_same (l : IppAttributeList) (g : DelimiterTag)
    (a : IppAttribute) : (l.add g a).get g a.name = some a := by
  unfold IppAttributeList.get
  rw [get_group_add_same]
  exact lookupAttr_insertAttr_same _ a

theorem get_add_other_name (l : IppAttributeList) (g : DelimiterTag)
    (a : IppAttribute) (n : List Nat) (h : n ≠ a.name) :
    (l.add g a).get g n = l.get g n := by
  unfold IppAttributeList.get
  rw [get_group_add_same]
  dsimp only
  rw [lookupAttr_insertAttr_other _ a n h]
  cases hg : l.get_group g with
  | none => simp [lookupAttr]
  | some attrs => simp

theorem get_add_other_group (l : IppAttributeList) (g g' : DelimiterTag)
    (a : IppAttribute) (n : List Nat) (h : g' ≠ g) :
    (l.add g a).get g' n = l.get g' n := by
  unfold IppAttributeList.get
  rw [get_group_add_other l g g' a h]

theorem mem_names_insertAttr (a : IppAttribute) (n : List Nat) :
    ∀ attrs : List IppAttribute,
      n ∈ (insertAttr attrs a).map IppAttribute.name →
      n = a.name ∨ n ∈ attrs.map IppAttribute.name := by
  intro attrs
  induction attrs with
  | nil =>
    intro h
    simpa [insertAttr] using h
  | cons b attrs ih =>
    intro h
    by_cases hb : b.name = a.name
    · simp only [insertAttr, if_pos hb, List.map_cons,
        List.mem_cons] at h
      rcases h with h | h
      · exact Or.inl h
      · exact Or.inr (List.mem_cons_of_mem _ h)
    · simp only [insertAttr, if_neg hb, List.map_cons,
        List.mem_cons] at h
      rcases h with h | h
      · exact Or.inr (by simp [h])
      · rcases ih h with h | h
        · exact Or.inl h
        · exact Or.inr (List.mem_cons_of_mem _ h)

theorem insertAttr_names_nodup (a : IppAttribute) :
    ∀ attrs : List IppAttribute, (attrs.map IppAttribute.name).Nodup →
      ((insertAttr attrs a).map IppAttribute.name).Nodup := by
  intro attrs
  induction attrs with
  | nil =>
    intro _
    simp [insertAttr]
  | cons b attrs ih =>
    intro h
    simp only [List.map_cons, List.nodup_cons] at h
    by_cases hb : b.name = a.name
    · simp only [insertAttr, if_pos hb, List.map_cons, List.nodup_cons]
      exact ⟨hb ▸ h.1, h.2⟩
    · simp only [insertAttr, if_neg hb, List.map_cons, List.nodup_cons]
      refine ⟨?_, ih h.2⟩
      intro hmem
      rcases mem_names_insertAttr a b.name attrs hmem with hh | hh
      · exact hb hh
      · exact h.1 hh

theorem insertGroup_nodup (g : DelimiterTag) (a : IppAttribute) :
    ∀ (m : List (DelimiterTag × List IppAttribute)),
      (∀ p ∈ m, (p.2.map IppAttribute.name).Nodup) →
      ∀ p ∈ insertGroup m g a, (p.2.map IppAttribute.name).Nodup := by
  intro m
  induction m with
  | nil =>
    intro _ p hp
    simp only [insertGroup, List.mem_singleton] at hp
    subst hp
    simp
  | cons q m ih =>
    obtain ⟨g', attrs⟩ := q
    intro h p hp
    by_cases hg : g' = g
    · simp only [insertGroup, if_pos hg, List.mem_cons] at hp
      rcases hp with rfl | hp
      · exact insertAttr_names_nodup a attrs
          (h (g', attrs) (List.mem_cons_self _ _))
      · exact h p (List.mem_cons_of_mem _ hp)
    · simp only [insertGroup, if_neg hg, List.mem_cons] at hp
      rcases hp with rfl | hp
      · exact h (g', attrs) (List.mem_cons_self _ _)
      · exact ih (fun q hq => h q (List.mem_cons_of_mem _ hq)) p hp

/-- An attribute list built by a sequence of `add` calls starting from
the empty list. -/
def buildList (ops : List (DelimiterTag × IppAttribute)) :
    IppAttributeList :=
  ops.foldl (fun acc p => acc.add p.1 p.2) IppAttributeList.new

theorem buildList_groups_nodup (ops : List (DelimiterTag × IppAttribute)) :
    ∀ p ∈ (buildList ops).attributes,
      (p.2.map IppAttribute.name).Nodup := by
  have main : ∀ (ops : List (DelimiterTag × IppAttribute))
      (l : IppAttributeList),
      (∀ p ∈ l.attributes, (p.2.map IppAttribute.name).Nodup) →
      ∀ p ∈ (ops.foldl (fun acc q => acc.add q.1 q.2) l).attributes,
        (p.2.map IppAttribute.name).Nodup := by
    intro ops
    induction ops with
    | nil => intro l h; exact h
    | cons q ops ih =>
      intro l h
      rw [List.foldl_cons]
      exact ih (l.add q.1 q.2) (insertGroup_nodup q.1 q.2 l.attributes h)
  have hempty : ∀ p ∈ (IppAttributeList.new).attributes,
      (p.2.map IppAttribute.name).Nodup := by
    intro p hp
    simp [IppAttributeList.new] at hp
  exact main ops IppAttributeList.new hempty

/-- **C7** (uniqueness and last write wins): `get` after `add` returns
the attribute just added under its name and group; an `add` leaves
every other name in the same group and every other group untouched;
and after any sequence of `add` calls starting from the empty list,
the attribute names within each group are free of duplicates. -/
theorem claim_C7_lastWriteWins :
    (∀ (l : IppAttributeList) (g : DelimiterTag) (a : IppAttribute),
      (l.add g a).get g a.name = some a) ∧
    (∀ (l : IppAttributeList) (g : DelimiterTag) (a : IppAttribute)
      (n : List Nat), n ≠ a.name → (l.add g a).get g n = l.get g n) ∧
    (∀ (l : IppAttributeList) (g g' : DelimiterTag) (a : IppAttribute)
      (n : List Nat), g' ≠ g → (l.add g a).get g' n = l.get g' n) ∧
    (∀ (ops : List (DelimiterTag × IppAttribute)) (g : DelimiterTag)
      (attrs : List IppAttribute),
      (buildList ops).get_group g = some attrs →
      (attrs.map IppAttribute.name).Nodup) :=
  ⟨get_add_same,
   get_add_other_name,
   get_add_other_group,
   fun ops g attrs h =>
     buildList_groups_nodup ops (g, attrs) (lookup_mem h)⟩

theorem claim_C7_lastWriteWins_witness :
    (([120] : List Nat) ≠ [121]) ∧
    ((IppAttributeList.new.add .OperationAttributes
        ⟨[121], .Other 0x21 [1]⟩).get .OperationAttributes [120] =
      IppAttributeList.new.get .OperationAttributes [120]) ∧
    ((DelimiterTag.JobAttributes ≠ DelimiterTag.OperationAttributes) ∧
      ((IppAttributeList.new.add .OperationAttributes
          ⟨[121], .Other 0x21 [1]⟩).get .JobAttributes [121] =
        IppAttributeList.new.get .JobAttributes [121])) :=
  ⟨by decide,
   claim_C7_lastWriteWins.2.1 IppAttributeList.new .OperationAttributes
     ⟨[121], .Other 0x21 [1]⟩ [120] (by decide),
   by decide,
   claim_C7_lastWriteWins.2.2.1 IppAttributeList.new .OperationAttributes
     .JobAttributes ⟨[121], .Other 0x21 [1]⟩ [121] (by decide)⟩

/-! ## The wire layout the spec describes (C3) -/

/-- The serialized layout in the words of the claim, for the
refinement theorem `claim_C3_writeLayout`: the Operation delimiter
byte unconditionally first; whichever of `attributes-charset`,
`attributes-natural-language`, `printer-uri` are present in the
Operation group, in that fixed order; each present group in the fixed
order Operation, Job, Printer, re-emitting the delimiter tag only for
Job and Printer and excluding the three header attributes from the
Operation remainder; the end-of-attributes sentinel last. -/
def writeSpec (l : IppAttributeList) : List Nat :=
  DelimiterTag.OperationAttributes.toByte
    :: (writeAttrs (headerEmission l)
      ++ ((match l.get_group .OperationAttributes with
          | some attrs =>
            writeAttrs (attrs.filter (fun a => !is_header_attr a.name))
          | none => [])
        ++ ((match l.get_group .JobAttributes with
            | some attrs =>
              DelimiterTag.JobAttributes.toByte :: writeAttrs attrs
            | none => [])
          ++ ((match l.get_group .PrinterAttributes with
              | some attrs =>
                DelimiterTag.PrinterAttributes.toByte :: writeAttrs attrs
              | none => [])
            ++ [DelimiterTag.EndOfAttributes.toByte]))))

theorem writeAttrs_append (as bs : List IppAttribute) :
    writeAttrs (as ++ bs) = writeAttrs as ++ writeAttrs bs := by
  induction as with
  | nil => rfl
  | cons a as ih => simp [writeAttrs, ih]

theorem headerBytes_writeAttrs (l : IppAttributeList) (h : List Nat) :
    headerBytes l h = writeAttrs (optAttr (l.get .OperationAttributes h)) := by
  unfold headerBytes optAttr
  cases l.get .OperationAttributes h with
  | none => rfl
  | some a => simp [writeAttrs]

theorem groupBytes_op (l : IppAttributeList) :
    groupBytes l .OperationAttributes =
      match l.get_group .OperationAttributes with
      | some attrs =>
        writeAttrs (attrs.filter (fun a => !is_header_attr a.name))
      | none => [] := by
  unfold groupBytes
  cases hg : l.get_group .OperationAttributes with
  | none => rfl
  | some attrs =>
    dsimp only
    rw [if_neg (by simp)]
    have hfeq : attrs.filter (fun a =>
        decide (DelimiterTag.OperationAttributes
          ≠ DelimiterTag.OperationAttributes) || !is_header_attr a.name) =
        attrs.filter (fun a => !is_header_attr a.name) :=
      List.filter_congr (fun a _ => by simp)
    rw [hfeq]
    simp

theorem groupBytes_ne_op (l : IppAttributeList) (g : DelimiterTag)
    (hg : g ≠ .OperationAttributes) :
    groupBytes l g =
      match l.get_group g with
      | some attrs => g.toByte :: writeAttrs attrs
      | none => [] := by
  unfold groupBytes
  cases h : l.get_group g with
  | none => rfl
  | some attrs =>
    dsimp only
    rw [if_pos hg]
    have hfeq : attrs.filter (fun a =>
        decide (g ≠ DelimiterTag.OperationAttributes)
          || !is_header_attr a.name) = attrs :=
      List.filter_eq_self.mpr (fun a _ => by simp [hg])
    rw [hfeq]
    simp

/-- **C3** (write layout and header promotion): `write` emits exactly
the layout the spec describes — Operation delimiter byte first for
every list, the present header attributes in the fixed order charset,
natural-language, uri ahead of every other attribute, then each present
group in the fixed order Operation (minus the header attributes, no
re-emitted tag), Job, Printer (each with its delimiter tag), then the
end sentinel as the last byte; and the header emission is determined by
name lookup, so adding the three header attributes in the non-canonical
order charset, uri, natural-language still emits them in the fixed
canonical order. -/
theorem claim_C3_writeLayout :
    (∀ l : IppAttributeList, l.write = writeSpec l) ∧
    (∀ l : IppAttributeList,
      l.write.head? = some DelimiterTag.OperationAttributes.toByte) ∧
    (∀ l : IppAttributeList,
      l.write.getLast? = some DelimiterTag.EndOfAttributes.toByte) ∧
    (∀ (l0 : IppAttributeList) (hc hn hu : IppAttribute),
      hc.name = ATTRIBUTES_CHARSET →
      hn.name = ATTRIBUTES_NATURAL_LANGUAGE →
      hu.name = PRINTER_URI →
      headerEmission (((l0.add .OperationAttributes hc).add
        .OperationAttributes hu).add .OperationAttributes hn) =
        [hc, hn, hu]) := by
  have hmain : ∀ l : IppAttributeList, l.write = writeSpec l := by
    intro l
    unfold IppAttributeList.write writeSpec
    simp only [HEADER_ATTRS, List.foldl_cons, List.foldl_nil,
      List.nil_append]
    rw [headerBytes_writeAttrs l ATTRIBUTES_CHARSET,
      headerBytes_writeAttrs l ATTRIBUTES_NATURAL_LANGUAGE,
      headerBytes_writeAttrs l PRINTER_URI,
      groupBytes_op l,
      groupBytes_ne_op l .JobAttributes (by decide),
      groupBytes_ne_op l .PrinterAttributes (by decide)]
    unfold headerEmission
    rw [writeAttrs_append, writeAttrs_append]
    simp [List.append_assoc]
  refine ⟨hmain, ?_, ?_, ?_⟩
  · intro l
    rw [hmain l]
    rfl
  · intro l
    rw [hmain l]
    unfold writeSpec
    rw [show (DelimiterTag.OperationAttributes.toByte
        :: (writeAttrs (headerEmission l) ++ _)) =
      [DelimiterTag.OperationAttributes.toByte]
        ++ (writeAttrs (headerEmission l) ++ _) from rfl]
    rw [List.getLast?_append_of_ne_nil _ (by simp)]
    rw [List.getLast?_append_of_ne_nil _ (by simp)]
    rw [List.getLast?_append_of_ne_nil _ (by simp)]
    rw [List.getLast?_append_of_ne_nil _ (by simp)]
    rw [List.getLast?_append_of_ne_nil _ (by simp)]
    rfl
  · intro l0 hc hn hu hcn hnn hun
    unfold headerEmission
    have h1 : (((l0.add .OperationAttributes hc).add
        .OperationAttributes hu).add .OperationAttributes hn).get
        .OperationAttributes ATTRIBUTES_CHARSET = some hc := by
      rw [get_add_other_name _ _ _ _ (by rw [hnn]; decide)]
      rw [get_add_other_name _ _ _ _ (by rw [hun]; decide)]
      rw [← hcn, get_add_same]
    have h2 : (((l0.add .OperationAttributes hc).add
        .OperationAttributes hu).add .OperationAttributes hn).get
        .OperationAttributes ATTRIBUTES_NATURAL_LANGUAGE = some hn := by
      rw [← hnn, get_add_same]
    have h3 : (((l0.add .OperationAttributes hc).add
        .OperationAttributes hu).add .OperationAttributes hn).get
        .OperationAttributes PRINTER_URI = some hu := by
      rw [get_add_other_name _ _ _ _ (by rw [hnn]; decide)]
      rw [← hun, get_add_same]
    rw [h1, h2, h3]
    rfl

theorem claim_C3_writeLayout_witness :
    (IppAttribute.name ⟨ATTRIBUTES_CHARSET, .Other 0x47 [117]⟩ =
      ATTRIBUTES_CHARSET) ∧
    headerEmission (((IppAttributeList.new.add .OperationAttributes
        ⟨ATTRIBUTES_CHARSET, .Other 0x47 [117]⟩).add
        .OperationAttributes ⟨PRINTER_URI, .Other 0x45 [105]⟩).add
        .OperationAttributes
        ⟨ATTRIBUTES_NATURAL_LANGUAGE, .Other 0x48 [101]⟩) =
      [⟨ATTRIBUTES_CHARSET, .Other 0x47 [117]⟩,
       ⟨ATTRIBUTES_NATURAL_LANGUAGE, .Other 0x48 [101]⟩,
       ⟨PRINTER_URI, .Other 0x45 [105]⟩] :=
  ⟨rfl,
   claim_C3_writeLayout.2.2.2 IppAttributeList.new
     ⟨ATTRIBUTES_CHARSET, .Other 0x47 [117]⟩
     ⟨ATTRIBUTES_NATURAL_LANGUAGE, .Other 0x48 [101]⟩
     ⟨PRINTER_URI, .Other 0x45 [105]⟩ rfl rfl rfl⟩

/-! ## Writing into the in-memory buffer (C9)

`into_reader` serializes into a `Vec`-backed buffer and unwraps the
result.  The writer below mirrors the fallible `io::Result` plumbing of
`write` (every `?` is a monadic bind, every write returns its byte
count); the primitive sink operations model writes into a `Vec`, which
cannot fail. -/

/-- Modelled from the spec: writing one byte into the in-memory `Vec`
buffer (`write_u8` on a `Vec` sink) — it always succeeds. -/
def putByte (buf : List Nat) (b : Nat) : Except String (List Nat) :=
  .ok (buf ++ [b])

/-- Modelled from the spec: writing raw bytes into the in-memory `Vec`
buffer (`write_all` / `write_u16` on a `Vec` sink) — it always
succeeds. -/
def putBytes (buf : List Nat) (bs : List Nat) : Except String (List Nat) :=
  .ok (buf ++ bs)

/-- Modelled from the spec: the value codec's
`write(value, sink) -> byte_count` on the `Vec` sink. -/
def writeValueTo (v : IppValue) (buf : List Nat) :
    Except String (List Nat × Nat) :=
  .ok (buf ++ v.write, v.write.length)

/-- `IppAttribute::write` against the fallible sink: tag byte, 2-byte
name length, name bytes, value bytes, accumulating the byte count
`retval`. -/
def IppAttribute.writeTo (a : IppAttribute) (buf : List Nat) :
    Except String (List Nat × Nat) := do
  let b1 ← putByte buf a.value.to_tag
  let b2 ← putBytes b1 (be16 a.name.length)
  let b3 ← putBytes b2 a.name
  let (b4, n) ← writeValueTo a.value b3
  pure (b4, 1 + 2 + a.name.length + n)

/-- One attribute loop of `IppAttributeList::write` against the
fallible sink. -/
def writeAttrsTo : List IppAttribute → List Nat → Nat →
    Except String (List Nat × Nat)
  | [], buf, acc => .ok (buf, acc)
  | a :: as, buf, acc => do
    let (b, n) ← a.writeTo buf
    writeAttrsTo as b (acc + n)

/-- The header loop of `IppAttributeList::write` against the fallible
sink. -/
def writeHeadersTo (l : IppAttributeList) : List (List Nat) → List Nat →
    Nat → Except String (List Nat × Nat)
  | [], buf, acc => .ok (buf, acc)
  | h :: hs, buf, acc =>
    match l.get .OperationAttributes h with
    | some a => do
      let (b, n) ← a.writeTo buf
      writeHeadersTo l hs b (acc + n)
    | none => writeHeadersTo l hs buf acc

/-- The group loop of `IppAttributeList::write` against the fallible
sink. -/
def writeGroupsTo (l : IppAttributeList) : List DelimiterTag → List Nat →
    Nat → Except String (List Nat × Nat)
  | [], buf, acc => .ok (buf, acc)
  | g :: gs, buf, acc =>
    match l.get_group g with
    | none => writeGroupsTo l gs buf acc
    | some attrs =>
      if g ≠ DelimiterTag.OperationAttributes then do
        let b ← putByte buf g.toByte
        let (b2, n) ← writeAttrsTo (attrs.filter (fun a =>
          decide (g ≠ DelimiterTag.OperationAttributes)
            || !is_header_attr a.name)) b 0
        writeGroupsTo l gs b2 (acc + 1 + n)
      else do
        let (b2, n) ← writeAttrsTo (attrs.filter (fun a =>
          decide (g ≠ DelimiterTag.OperationAttributes)
            || !is_header_attr a.name)) buf 0
        writeGroupsTo l gs b2 (acc + n)

/-- `IppAttributeList::write` against the fallible sink. -/
def IppAttributeList.writeTo (l : IppAttributeList) (buf0 : List Nat) :
    Except String (List Nat × Nat) := do
  let b1 ← putByte buf0 DelimiterTag.OperationAttributes.toByte
  let (b2, n1) ← writeHeadersTo l HEADER_ATTRS b1 0
  let (b3, n2) ← writeGroupsTo l
    [DelimiterTag.OperationAttributes, DelimiterTag.JobAttributes,
     DelimiterTag.PrinterAttributes] b2 0
  let b4 ← putByte b3 DelimiterTag.EndOfAttributes.toByte
  pure (b4, 1 + n1 + n2 + 1)

/-- `IppAttributeList::into_reader`: buffer the full write, unwrap it
and expose the bytes as a readable stream; the `error` branch is the
panic of the `unwrap`. -/
def IppAttributeList.into_reader (l : IppAttributeList) :
    Except String (List Nat) :=
  match l.writeTo [] with
  | .ok (buf, _) => .ok buf
  | .error e => .error e

theorem IppAttribute.writeTo_eq (a : IppAttribute) (buf : List Nat) :
    a.writeTo buf = .ok (buf ++ a.write, a.write.length) := by
  unfold IppAttribute.writeTo putByte putBytes writeValueTo
  show Except.ok (buf ++ [a.value.to_tag] ++ be16 a.name.length ++ a.name
      ++ a.value.write,
    1 + 2 + a.name.length + a.value.write.length) = _
  simp [IppAttribute.write, be16, List.append_assoc]
  omega

theorem writeAttrsTo_eq (as : List IppAttribute) :
    ∀ (buf : List Nat) (acc : Nat),
      writeAttrsTo as buf acc =
        .ok (buf ++ writeAttrs as, acc + (writeAttrs as).length) := by
  induction as with
  | nil =>
    intro buf acc
    simp [writeAttrsTo, writeAttrs]
  | cons a as ih =>
    intro buf acc
    rw [writeAttrsTo, IppAttribute.writeTo_eq]
    show writeAttrsTo as (buf ++ a.write) (acc + a.write.length) = _
    rw [ih]
    simp [writeAttrs, List.append_assoc]
    omega

theorem writeHeadersTo_eq (l : IppAttributeList) (hs : List (List Nat)) :
    ∀ (buf : List Nat) (acc : Nat),
      writeHeadersTo l hs buf acc =
        .ok (buf ++ hs.foldl (fun s h => s ++ headerBytes l h) [],
          acc + (hs.foldl (fun s h => s ++ headerBytes l h) []).length) := by
  have hfold : ∀ (hs : List (List Nat)) (s : List Nat),
      hs.foldl (fun s h => s ++ headerBytes l h) s =
        s ++ hs.foldl (fun s h => s ++ headerBytes l h) [] := by
    intro hs
    induction hs with
    | nil => intro s; simp
    | cons h hs ih =>
      intro s
      rw [List.foldl_cons, List.foldl_cons, ih (s ++ headerBytes l h),
        ih ([] ++ headerBytes l h)]
      simp
  induction hs with
  | nil =>
    intro buf acc
    simp [writeHeadersTo]
  | cons h hs ih =>
    intro buf acc
    rw [writeHeadersTo]
    cases hh : l.get .OperationAttributes h with
    | none =>
      dsimp only
      rw [ih]
      rw [List.foldl_cons, hfold hs (([] : List Nat) ++ headerBytes l h)]
      have hhb : headerBytes l h = [] := by
        unfold headerBytes
        rw [hh]
      simp [hhb]
    | some a =>
      dsimp only
      rw [IppAttribute.writeTo_eq]
      show writeHeadersTo l hs (buf ++ a.write) (acc + a.write.length) = _
      rw [ih]
      rw [List.foldl_cons, hfold hs (([] : List Nat) ++ headerBytes l h)]
      have hhb : headerBytes l h = a.write := by
        unfold headerBytes
        rw [hh]
      simp [hhb, List.append_assoc]
      omega

theorem writeGroupsTo_eq (l : IppAttributeList) (gs : List DelimiterTag) :
    ∀ (buf : List Nat) (acc : Nat),
      writeGroupsTo l gs buf acc =
        .ok (buf ++ gs.foldl (fun s g => s ++ groupBytes l g) [],
          acc + (gs.foldl (fun s g => s ++ groupBytes l g) []).length) := by
  have hfold : ∀ (gs : List DelimiterTag) (s : List Nat),
      gs.foldl (fun s g => s ++ groupBytes l g) s =
        s ++ gs.foldl (fun s g => s ++ groupBytes l g) [] := by
    intro gs
    induction gs with
    | nil => intro s; simp
    | cons g gs ih =>
      intro s
      rw [List.foldl_cons, List.foldl_cons, ih (s ++ groupBytes l g),
        ih ([] ++ groupBytes l g)]
      simp
  induction gs with
  | nil =>
    intro buf acc
    simp [writeGroupsTo]
  | cons g gs ih =>
    intro buf acc
    rw [writeGroupsTo]
    cases hg : l.get_group g with
    | none =>
      dsimp only
      rw [ih]
      rw [List.foldl_cons, hfold gs (([] : List Nat) ++ groupBytes l g)]
      have hgb : groupBytes l g = [] := by
        unfold groupBytes
        rw [hg]
      simp [hgb]
    | some attrs =>
      dsimp only
      by_cases hop : g = DelimiterTag.OperationAttributes
      · rw [if_neg (by simp [hop])]
        rw [writeAttrsTo_eq]
        show writeGroupsTo l gs _ _ = _
        rw [ih]
        rw [List.foldl_cons, hfold gs (([] : List Nat) ++ groupBytes l g)]
        have hgb : groupBytes l g = writeAttrs (attrs.filter (fun a =>
            decide (g ≠ DelimiterTag.OperationAttributes)
              || !is_header_attr a.name)) := by
          unfold groupBytes
          rw [hg]
          simp [hop]
        simp [hgb, List.append_assoc]
        omega
      · rw [if_pos hop]
        show (do
          let (b2, n) ← writeAttrsTo (attrs.filter (fun a =>
            decide (g ≠ DelimiterTag.OperationAttributes)
              || !is_header_attr a.name)) (buf ++ [g.toByte]) 0
          writeGroupsTo l gs b2 (acc + 1 + n)) = _
        rw [writeAttrsTo_eq]
        show writeGroupsTo l gs _ _ = _
        rw [ih]
        rw [List.foldl_cons, hfold gs (([] : List Nat) ++ groupBytes l g)]
        have hgb : groupBytes l g = [g.toByte] ++ writeAttrs
            (attrs.filter (fun a =>
              decide (g ≠ DelimiterTag.OperationAttributes)
                || !is_header_attr a.name)) := by
          unfold groupBytes
          rw [hg]
          simp [hop]
        simp [hgb, List.append_assoc]
        omega

/-- **C9** (`into_reader` cannot fail): the serialization into the
in-memory buffer always succeeds — the `unwrap` in `into_reader` is
unreachable — returning a byte count equal to the length of the
output, and the reader `into_reader` yields exactly the byte sequence
`IppAttributeList::write` emits for the same list. -/
theorem claim_C9_intoReader (l : IppAttributeList) :
    l.into_reader = .ok l.write ∧
    l.writeTo [] = .ok (l.write, l.write.length) := by
  have hwt : l.writeTo [] = .ok (l.write, l.write.length) := by
    unfold IppAttributeList.writeTo
    show (do
      let (b2, n1) ← writeHeadersTo l HEADER_ATTRS
        ([] ++ [DelimiterTag.OperationAttributes.toByte]) 0
      let (b3, n2) ← writeGroupsTo l
        [DelimiterTag.OperationAttributes, DelimiterTag.JobAttributes,
         DelimiterTag.PrinterAttributes] b2 0
      let b4 ← putByte b3 DelimiterTag.EndOfAttributes.toByte
      pure (b4, 1 + n1 + n2 + 1)) = _
    rw [writeHeadersTo_eq]
    show (do
      let (b3, n2) ← writeGroupsTo l
        [DelimiterTag.OperationAttributes, DelimiterTag.JobAttributes,
         DelimiterTag.PrinterAttributes]
        ([] ++ [DelimiterTag.OperationAttributes.toByte]
          ++ HEADER_ATTRS.foldl (fun s h => s ++ headerBytes l h) []) 0
      let b4 ← putByte b3 DelimiterTag.EndOfAttributes.toByte
      pure (b4, 1 + (0 + (HEADER_ATTRS.foldl
        (fun s h => s ++ headerBytes l h) []).length) + n2 + 1)) = _
    rw [writeGroupsTo_eq]
    show Except.ok ((([] ++ [DelimiterTag.OperationAttributes.toByte]
        ++ HEADER_ATTRS.foldl (fun s h => s ++ headerBytes l h) []
        ++ [DelimiterTag.OperationAttributes, DelimiterTag.JobAttributes,
            DelimiterTag.PrinterAttributes].foldl
            (fun s g => s ++ groupBytes l g) [])
        ++ [DelimiterTag.EndOfAttributes.toByte]),
      1 + (0 + (HEADER_ATTRS.foldl
        (fun s h => s ++ headerBytes l h) []).length)
        + (0 + ([DelimiterTag.OperationAttributes,
            DelimiterTag.JobAttributes,
            DelimiterTag.PrinterAttributes].foldl
            (fun s g => s ++ groupBytes l g) []).length) + 1) = _
    unfold IppAttributeList.write
    simp [List.append_assoc]
    omega
  exact ⟨by unfold IppAttributeList.into_reader; rw [hwt], hwt⟩

end IppParse
